import Mathlib

/-!
# A shallow embedding of `chprintf.c` (ChibiOS mini printf)

This file models the format engine of `src/chibios/os/hal/lib/streams/chprintf.c`
and proves/refutes the frozen claims about it.

Modelling conventions:

* The target is a 32-bit embedded platform (the one ChibiOS' HAL is written
  for): `int`, `long`, `unsigned`, `unsigned long` are all 32 bits wide and
  `char` is an unsigned 8-bit byte.  Machine integers are modelled as `Int`
  (resp. `Nat`) with explicit reduction mod `2^32` (resp. `2^8`) at every
  conversion the C code performs.  Signed overflow of `l = -l` is modelled as
  the two's-complement wrap the target performs.
* `double` values are modelled as exact rationals (`ℚ`): every arithmetic
  step of `ftoa` (`/10`, `*10`, truncation to integer) is an exact rational
  operation.  NaN and infinities do not exist in this idealisation, so the
  `isnan`/`isinf` branches of `ftoa` are vacuous.
* The working buffer `tmpbuf` is modelled as a total function `Nat → Char`
  (an unbounded memory), so that a write outside the declared capacity is
  *visible* in the model instead of being masked.
* C strings are `List Char` with the terminating NUL *implicit* at the end
  of the list; reading past that terminator (an out-of-bounds read in C) is
  modelled as failure (`none` / `.ub`).
* The `while`/`do-while` loops become either structural recursion or
  fuel-indexed recursion where the fuel provably dominates the number of
  iterations the C loop performs; exhausted fuel is `none` and is proved
  unreachable where the claims need it.
-/

set_option maxHeartbeats 1000000
set_option maxRecDepth 10000

/-- The NUL byte, i.e. the C string terminator. -/
def NUL : Char := Char.ofNat 0

/-- `#define MAX_FILLER 11` (chprintf.c line 36). -/
def MAX_FILLER : Nat := 11

/-- `#define FLOAT_PRECISION 9` (chprintf.c line 37). -/
def FLOAT_PRECISION : Nat := 9

/-- A byte-addressed character buffer; `tmpbuf` and the destination of
`chvsnprintf` are modelled this way so that out-of-range writes are visible. -/
def Buf : Type := Nat → Char

/-- Write one byte at index `i`. -/
def bwrite (b : Buf) (i : Nat) (c : Char) : Buf :=
  fun j => if j = i then c else b j

/-- Read `n` consecutive bytes starting at `s`. -/
def bufRead (b : Buf) (s : Nat) : Nat → List Char
  | 0 => []
  | n + 1 => b s :: bufRead b (s + 1) n

/-- Write a list of bytes at consecutive indices starting at `s`. -/
def writeList (b : Buf) (s : Nat) : List Char → Buf
  | [] => b
  | c :: cs => writeList (bwrite b s c) (s + 1) cs

/-- Interpret a 32-bit pattern as the signed value C's `int`/`long` sees. -/
def toSigned32 (v : Nat) : Int :=
  if v % 2 ^ 32 < 2 ^ 31 then ((v % 2 ^ 32 : Nat) : Int)
  else ((v % 2 ^ 32 : Nat) : Int) - 2 ^ 32

/-- The 32-bit pattern of an integer (used to build arguments in examples). -/
def toWord (i : Int) : Nat := (i.emod (2 ^ 32)).toNat

/-- Two's-complement wrap of `-l` on a 32-bit `long` (models `l = -l;`,
which overflows for `LONG_MIN`). -/
def neg32 (l : Int) : Int := toSigned32 ((-l).emod (2 ^ 32)).toNat

/-- Unsigned 32-bit subtraction (models `unsigned long` arithmetic such as
the `precision - 2` table index inside `ftoa`). -/
def wrapSub32 (a b : Nat) : Nat := (a + 2 ^ 32 - b % 2 ^ 32) % 2 ^ 32

/-- One variadic argument.  The C engine consumes an untyped `va_list`; on
the 32-bit target `int`, `long`, `unsigned` and `unsigned long` all occupy
one 32-bit slot, modelled as its bit pattern `word`.  A `char *` argument is
a possibly-null pointer to a NUL-terminated string.  A `double` is an exact
rational. -/
inductive CArg : Type
  | word (v : Nat)
  | str (s : Option (List Char))
  | dbl (q : ℚ)
  deriving DecidableEq

/-- `va_arg(ap, int)` (also `va_arg(ap, long)`: same 32-bit slot). -/
def vaInt : List CArg → Option (Int × List CArg)
  | CArg.word v :: r => some (toSigned32 v, r)
  | _ => none

/-- `va_arg(ap, long)`; `long` and `int` coincide on the modelled target. -/
def vaLong : List CArg → Option (Int × List CArg) := vaInt

/-- `va_arg(ap, unsigned int)` / `va_arg(ap, unsigned long)`. -/
def vaUnsigned : List CArg → Option (Nat × List CArg)
  | CArg.word v :: r => some (v % 2 ^ 32, r)
  | _ => none

/-- `va_arg(ap, char *)`. -/
def vaStr : List CArg → Option (Option (List Char) × List CArg)
  | CArg.str s :: r => some (s, r)
  | _ => none

/-- `va_arg(ap, double)`. -/
def vaDouble : List CArg → Option (ℚ × List CArg)
  | CArg.dbl q :: r => some (q, r)
  | _ => none

/-! ## The integer renderer (`long_to_string_with_divisor`, lines 50-86) -/

/-- One digit character: `i = l % radix; i += '0'; if (i > '9') i += 'A'-'0'-10;`
followed by the `int → char` store.  For a negative `l` the C `%` is the
truncated remainder, so the stored byte can be below `'0'`; the model keeps
that behaviour. -/
def digitChar (i : Int) : Char :=
  let j := i + 48
  let j := if 57 < j then j + 7 else j
  Char.ofNat (j.emod 256).toNat

/-- The `do { ... } while ((ll /= radix) != 0)` loop: writes digits of `l`
backwards starting at index `q - 1`, one per division of `ll`.  Fuel
dominates the iteration count whenever `radix ≥ 2` (proved below); `none`
models the non-termination the C loop would exhibit otherwise. -/
def ltsDigits (buf : Buf) (q : Nat) (l ll : Int) (radix : Nat) : Nat → Option (Buf × Nat)
  | 0 => none
  | fuel + 1 =>
    let buf1 := bwrite buf (q - 1) (digitChar (l.tmod radix))
    let l1 := l.tdiv radix
    let ll1 := ll.tdiv radix
    if ll1 = 0 then some (buf1, q - 1)
    else ltsDigits buf1 (q - 1) l1 ll1 radix fuel

/-- The `do *p++ = *q++; while (--i);` copy.  At the call site `i ≥ 1`
always holds because the digit loop writes at least one character. -/
def ltsCopy (buf : Buf) (p q : Nat) : Nat → Buf × Nat
  | 0 => (buf, p)
  | i + 1 => ltsCopy (bwrite buf p (buf q)) (p + 1) (q + 1) i

/-- `long_to_string_with_divisor(p, num, radix, divisor)`: renders `num`
into the buffer at `p`, reserving one digit position per radix-digit of
`divisor` (of `num` itself when `divisor == 0`), and returns the index just
past the rendered text. -/
def long_to_string_with_divisor (buf : Buf) (p : Nat) (num : Int) (radix : Nat)
    (divisor : Int) : Option (Buf × Nat) :=
  let ll := if divisor = 0 then num else divisor
  match ltsDigits buf (p + MAX_FILLER) num ll radix (ll.natAbs + 1) with
  | none => none
  | some (buf1, q) => some (ltsCopy buf1 p q (p + MAX_FILLER - q))

/-- `ch_ltoa(p, num, radix)` (lines 88-92). -/
def ch_ltoa (buf : Buf) (p : Nat) (num : Int) (radix : Nat) : Option (Buf × Nat) :=
  long_to_string_with_divisor buf p num radix 0

/-! ## The float renderer (`ftoa`, lines 123-202) -/

/-- `static const long pow10[FLOAT_PRECISION]` (lines 96-97). -/
def pow10 : List Int :=
  [10, 100, 1000, 10000, 100000, 1000000, 10000000, 100000000, 1000000000]

/-- A C cast of a `double` to an integer type: truncation toward zero. -/
def ctruncQ (q : ℚ) : Int := if q < 0 then -⌊-q⌋ else ⌊q⌋

/-- First normalisation loop, `while (num >= 10.0) { num /= 10.0; E++; }`. -/
def scaleDown (q : ℚ) (E : Int) : ℚ × Int :=
  if h : 10 ≤ q then scaleDown (q / 10) (E + 1) else (q, E)
  termination_by (⌈q⌉).toNat
  decreasing_by
    have _h1 : (1 : ℚ) ≤ q / 10 := by linarith
    have _h2 : q / 10 ≤ q - 1 := by linarith
    have h3 : ⌈q / 10⌉ ≤ ⌈q⌉ - 1 := by
      have : ((⌈q⌉ - 1 : ℤ) : ℚ) = (⌈q⌉ : ℚ) - 1 := by push_cast; ring
      refine Int.ceil_le.2 ?_
      rw [this]
      have := Int.le_ceil q
      linarith
    have h4 : (0 : ℤ) < ⌈q / 10⌉ := Int.ceil_pos.2 (by linarith)
    omega

/-- Second normalisation loop, `while (num < 1.0) { num *= 10.0; E--; }`.
For `q ≤ 0` the C loop never exits; the model returns `none` (undefined
behaviour / divergence) in that case. -/
def scaleUp (q : ℚ) (E : Int) : Option (ℚ × Int) :=
  if h0 : 0 < q then
    if h1 : q < 1 then scaleUp (q * 10) (E - 1) else some (q, E)
  else none
  termination_by (⌈q⁻¹⌉).toNat
  decreasing_by
    have ht : (1 : ℚ) < q⁻¹ := (one_lt_inv_iff₀.2 ⟨h0, h1⟩)
    have hc2 : (2 : ℤ) ≤ ⌈q⁻¹⌉ := by
      have h5 : (1 : ℤ) < ⌈q⁻¹⌉ := Int.lt_ceil.2 (by exact_mod_cast ht)
      omega
    have h3 : ⌈(q * 10)⁻¹⌉ ≤ ⌈q⁻¹⌉ - 1 := by
      have hinv : (q * 10)⁻¹ = q⁻¹ / 10 := by
        rw [mul_inv]; ring
      rw [hinv]
      refine Int.ceil_le.2 ?_
      have hle : q⁻¹ ≤ (⌈q⁻¹⌉ : ℚ) := Int.le_ceil _
      have hc2' : (2 : ℚ) ≤ (⌈q⁻¹⌉ : ℚ) := by exact_mod_cast hc2
      push_cast
      linarith
    have h4 : (0 : ℤ) < ⌈(q * 10)⁻¹⌉ := by
      refine Int.ceil_pos.2 ?_
      positivity
    omega

/-- The exponent-finding prologue of `ftoa` (lines 142-155): returns the
normalised mantissa and the decimal exponent `E` of the leading digit. -/
def normalizeQ (q : ℚ) : Option (ℚ × Int) :=
  if q = 0 then some (q, 0)
  else
    let d := scaleDown q 0
    scaleUp d.1 d.2

/-- The precision clamp (lines 157-158):
`if ((precision == 0) || (precision > FLOAT_PRECISION)) precision = FLOAT_PRECISION;`. -/
def clampPrec (precision : Nat) : Nat :=
  if precision = 0 ∨ FLOAT_PRECISION < precision then FLOAT_PRECISION else precision

/-- The plain-mode digit loop (lines 163-170):
`for (; precision > 0; E--, precision--) { *p++ = '0' + (int)num; if (E == 0 && precision > 1) *p++ = '.'; num -= (int)num; num *= 10; }`. -/
def ftoaPlainLoop (buf : Buf) (p : Nat) (num : ℚ) (E : Int) : Nat → Buf × Nat
  | 0 => (buf, p)
  | prec + 1 =>
    let d := ctruncQ num
    let buf1 := bwrite buf p (Char.ofNat ((48 + d).emod 256).toNat)
    let pd := if E = 0 ∧ 0 < prec then (bwrite buf1 (p + 1) '.', p + 2) else (buf1, p + 1)
    ftoaPlainLoop pd.1 pd.2 ((num - (ctruncQ num : ℚ)) * 10) (E - 1) prec

/-- The exponent suffix of the scientific branch (lines 188-199). -/
def ftoaExp (buf : Buf) (p : Nat) (E : Int) : Option (Buf × Nat) :=
  let buf1 := bwrite buf p 'E'
  if 0 ≤ E then
    long_to_string_with_divisor (bwrite buf1 (p + 1) '+') (p + 2) E 10 0
  else
    long_to_string_with_divisor (bwrite buf1 (p + 1) '-') (p + 2) (-E) 10 0

/-- The fraction-and-exponent tail of the scientific branch of `ftoa`
(lines 179-199), entered after the integer part has been rendered up to
`p1`.  The table index `precision - 2` is the `unsigned long` wrap-around
subtraction, so `precision == 1` produces the out-of-bounds `pow10[-1]`
read, modelled by `List.get?` returning `none`. -/
def ftoaSci (buf1 : Buf) (p1 : Nat) (m : ℚ) (E : Int) (prec : Nat) : Option (Buf × Nat) :=
  if 1 ≤ prec then
    match pow10.get? (wrapSub32 prec 2) with
    | none => none
    | some pw =>
      let buf2 := bwrite buf1 p1 '.'
      let l2 := ctruncQ ((m - (ctruncQ m : ℚ)) * (pw : ℚ))
      match long_to_string_with_divisor buf2 (p1 + 1) l2 10 (pw / 10) with
      | none => none
      | some (buf3, p3) => ftoaExp buf3 p3 E
  else ftoaExp buf1 p1 E

/-- The body of `ftoa` after normalisation (lines 157-200): precision
clamp, notation choice, and either the plain digit loop or the
integer-part render followed by the scientific tail. -/
def ftoaCore (buf : Buf) (p : Nat) (m : ℚ) (E : Int) (precision : Nat) : Option (Buf × Nat) :=
  let prec := clampPrec precision
  if E < (prec : Int) ∧ 0 ≤ E then
    some (ftoaPlainLoop buf p m E prec)
  else
    match long_to_string_with_divisor buf p (ctruncQ m) 10 0 with
    | none => none
    | some (buf1, p1) => ftoaSci buf1 p1 m E prec

/-- `ftoa(p, num, precision)` (lines 123-202).  `precision` is the C
`unsigned long`, hence a `Nat`.  In this rational model no value is NaN or
infinite, so those two branches (lines 125-140) are vacuous and omitted. -/
def ftoa (buf : Buf) (p : Nat) (num : ℚ) (precision : Nat) : Option (Buf × Nat) :=
  match normalizeQ num with
  | none => none
  | some (m, E) => ftoaCore buf p m E precision

/-! ## The format engine (`chvprintf`, lines 232-405)

The `BaseSequentialStream` sink is only ever used through `streamPut`, whose
return value `chvprintf` ignores, so the byte sequence the engine emits is
independent of the sink; the engine is modelled as the pure function that
produces that byte sequence together with the running count `n` (each
`streamPut` call is paired with `n++`, so `n` equals the number of emitted
bytes, proved below).

The format cursor is the remaining `List Char` of a NUL-terminated string:
`chvprintfS` appends the terminator explicitly, and reading from the empty
list models the out-of-bounds read C performs past the terminator, yielding
`.ub`.  The `static volatile double f` (line 340) is threaded through the
loop as explicit state so that its cross-invocation persistence is visible. -/

/-- The width/precision accumulation loop (lines 271-281 and 285-296):
reads characters, accumulating `acc = acc*10 + c` for digits and for the
`int` argument a `*` consumes (truncated to the unsigned 8-bit `char` the
target stores it in); stops at the first other character and returns it. -/
def parseNum (fmt : List Char) (args : List CArg) (acc : Int) :
    Option (Int × Char × List Char × List CArg) :=
  match fmt with
  | [] => none
  | c :: rest =>
    if '0' ≤ c ∧ c ≤ '9' then parseNum rest args (acc * 10 + ((c.toNat : Int) - 48))
    else if c = '*' then
      match vaInt args with
      | none => none
      | some (v, args1) => parseNum rest args1 (acc * 10 + v.emod 256)
    else some (acc, c, rest, args)

/-- The long modifier (lines 298-306): on `l`/`L` the conversion character
is re-read from the next format position (guarded by `if (*fmt)`, so the
cursor never moves past the terminator here); otherwise an upper-case
conversion character itself selects the wide type. -/
def decodeLong (c : Char) (fmt : List Char) : Option (Bool × Char × List Char) :=
  if c = 'l' ∨ c = 'L' then
    match fmt with
    | [] => none
    | f :: rest => if f ≠ NUL then some (true, f, rest) else some (true, c, fmt)
  else some (decide ('A' ≤ c ∧ c ≤ 'Z'), c, fmt)

/-- The `%s` measuring walk (line 321):
`for (p = s; *p && (--precision >= 0); p++);` with the argument string's
terminator implicit at the end of the list. -/
def walkLen (s : List Char) (precision : Int) : Int :=
  match s with
  | [] => 0
  | c :: rest => if c = NUL then 0
    else if 0 ≤ precision - 1 then walkLen rest (precision - 1) + 1 else 0

/-- The padding/emission phase (lines 373-403), as the byte sequence it
sends to the sink: `s` is the rendered text's origin (with the terminator
semantics of `headD NUL` for the `%s` case), `i` the rendered length. -/
def emitField (s : List Char) (i : Int) (width0 : Int) (left_align : Bool)
    (filler : Char) : List Char :=
  let w1 := width0 - i
  let w2 := if w1 < 0 then 0 else w1
  let w3 := if left_align then w2 else -w2
  if w3 < 0 then
    if s.headD NUL = '-' ∧ filler = '0' then
      s.headD NUL :: (List.replicate (-w3).toNat filler ++ (s.drop 1).take (i - 1).toNat)
    else List.replicate (-w3).toNat filler ++ s.take i.toNat
  else s.take i.toNat ++ List.replicate w3.toNat filler

/-- The parse phase of one `%` directive (lines 256-306): flags, width,
precision, long modifier.  Returns
`(left_align, filler, width, precision, is_long, conversion char, cursor, args)`;
`none` is a cursor read past the terminator or an argument-list mismatch. -/
def parseDirective (fmt0 : List Char) (args0 : List CArg) :
    Option (Bool × Char × Int × Int × Bool × Char × List Char × List CArg) :=
  match fmt0 with
  | [] => none
  | c1 :: r1 =>
    let la := if c1 = '-' then (true, r1) else (false, fmt0)
    match la.2 with
    | [] => none
    | c2 :: r2 =>
      let fl := if c2 = '0' then ('0', r2) else (' ', la.2)
      match parseNum fl.2 args0 0 with
      | none => none
      | some (width, cW, fmtC, argsC) =>
        match (if cW = '.' then parseNum fmtC argsC 0 else some (0, cW, fmtC, argsC)) with
        | none => none
        | some (precision, c3, fmtD, argsD) =>
          match decodeLong c3 fmtD with
          | none => none
          | some (is_long, c4, fmtE) =>
            some (la.1, fl.1, width, precision, is_long, c4, fmtE, argsD)

/-- The dispatch-and-emit phase of one `%` directive (lines 308-403): the
`switch` on the conversion character, rendering into the working buffer,
then the padding/emission phase.  Returns the emitted bytes, remaining
cursor and arguments, the buffer after the directive (stale bytes persist
across directives, as for the C stack array), and `some v` when the
directive stored `v` into the static `f`. -/
def dispatchCase (left_align : Bool) (filler : Char) (width precision : Int)
    (is_long : Bool) (c4 : Char) (fmtE : List Char) (argsD : List CArg) (buf0 : Buf) :
    Option (List Char × List Char × List CArg × Buf × Option ℚ) :=
  if c4 = 'c' then
    match vaInt argsD with
    | none => none
    | some (v, argsE) =>
      let buf1 := bwrite buf0 0 (Char.ofNat (v.emod 256).toNat)
      some (emitField (bufRead buf1 0 1) 1 width left_align ' ',
            fmtE, argsE, buf1, none)
  else if c4 = 's' then
    match vaStr argsD with
    | none => none
    | some (so, argsE) =>
      let s := match so with
        | none => "(null)".toList
        | some str => str
      let prec2 : Int := if precision = 0 then 32767 else precision
      let i := walkLen s prec2
      some (emitField s i width left_align ' ', fmtE, argsE, buf0, none)
  else if c4 = 'D' ∨ c4 = 'd' ∨ c4 = 'I' ∨ c4 = 'i' then
    match (if is_long then vaLong argsD else vaInt argsD) with
    | none => none
    | some (v, argsE) =>
      let st := if v < 0 then (bwrite buf0 0 '-', 1, neg32 v) else (buf0, 0, v)
      match ch_ltoa st.1 st.2.1 st.2.2 10 with
      | none => none
      | some (buf2, p2) =>
        some (emitField (bufRead buf2 0 p2) p2 width left_align filler,
              fmtE, argsE, buf2, none)
  else if c4 = 'f' then
    match vaDouble argsD with
    | none => none
    | some (fv, argsE) =>
      let st := if fv < 0 then (bwrite buf0 0 '-', 1, -fv) else (buf0, 0, fv)
      match ftoa st.1 st.2.1 st.2.2 (precision.emod (2 ^ 32)).toNat with
      | none => none
      | some (buf2, p2) =>
        some (emitField (bufRead buf2 0 p2) p2 width left_align filler,
              fmtE, argsE, buf2, some st.2.2)
  else if c4 = 'X' ∨ c4 = 'x' ∨ c4 = 'U' ∨ c4 = 'u' ∨ c4 = 'O' ∨ c4 = 'o' then
    let radix : Nat := if c4 = 'X' ∨ c4 = 'x' then 16
      else if c4 = 'U' ∨ c4 = 'u' then 10 else 8
    match vaUnsigned argsD with
    | none => none
    | some (uv, argsE) =>
      match ch_ltoa buf0 0 (toSigned32 uv) radix with
      | none => none
      | some (buf2, p2) =>
        some (emitField (bufRead buf2 0 p2) p2 width left_align filler,
              fmtE, argsE, buf2, none)
  else
    let buf1 := bwrite buf0 0 c4
    some (emitField (bufRead buf1 0 1) 1 width left_align filler,
          fmtE, argsD, buf1, none)

/-- Processing of one `%` directive (lines 256-403): parse phase followed
by dispatch and emission. -/
def doDirective (fmt0 : List Char) (args0 : List CArg) (buf0 : Buf) :
    Option (List Char × List Char × List CArg × Buf × Option ℚ) :=
  match parseDirective fmt0 args0 with
  | none => none
  | some (left_align, filler, width, precision, is_long, c4, fmtE, argsD) =>
    dispatchCase left_align filler width precision is_long c4 fmtE argsD buf0

/-- The result of a `chvprintf` run: the emitted bytes, the final count
`n`, the final contents of the static `f`; or `.ub` when the run performs
an out-of-bounds cursor read or another undefined operation. -/
inductive PRes : Type
  | ok (out : List Char) (n : Int) (fstat : ℚ)
  | ub
  deriving DecidableEq

/-- Prefix the emitted bytes of a successful run with the bytes an earlier
iteration emitted (failures pass through). -/
def consRes (es : List Char) : Option PRes → Option PRes
  | some (.ok out n f) => some (.ok (es ++ out) n f)
  | r => r

/-- The main loop of `chvprintf` (lines 245-404), fuel-indexed.  Every
iteration consumes at least one cursor character, so
`fuel = cursor length + 2` dominates the iteration count. -/
def chvLoop : Nat → List Char → List CArg → Int → Buf → ℚ → Option PRes
  | 0, _, _, _, _, _ => none
  | fuel + 1, fmt, args, n, buf, fstat =>
    match fmt with
    | [] => some .ub
    | c :: fmt1 =>
      if c = NUL then some (.ok [] n fstat)
      else if c ≠ '%' then
        consRes [c] (chvLoop fuel fmt1 args (n + 1) buf fstat)
      else
        match doDirective fmt1 args buf with
        | none => some .ub
        | some (es, fmt2, args2, buf2, newF) =>
          consRes es (chvLoop fuel fmt2 args2 (n + (es.length : Int)) buf2 (newF.getD fstat))

/-- `chvprintf(chp, fmt, ap)` with explicit entry state: `f0` is the value
the static `f` holds when the call starts (whatever earlier calls left
there) and `tmp0` the garbage the stack array `tmpbuf` happens to contain. -/
def chvprintfS (f0 : ℚ) (tmp0 : Buf) (fmt : List Char) (args : List CArg) : Option PRes :=
  chvLoop (fmt.length + 2) (fmt ++ [NUL]) args 0 tmp0 f0

/-- `chvprintf` with a fixed (zeroed) entry state; the theorems below show
the observable result does not depend on that state. -/
def chvprintf (fmt : List Char) (args : List CArg) : Option PRes :=
  chvprintfS 0 (fun _ => NUL) fmt args

/-- The caller-observable part of a run: emitted bytes and return value
(the final value of the static `f` is invisible to the caller). -/
def obs : Option PRes → Option (Option (List Char × Int))
  | none => none
  | some (.ok out n _) => some (some (out, n))
  | some .ub => some none

/-! ## The bounded form (`chvsnprintf`, lines 513-541) -/

/-- Modelled from the spec: the `MemoryStream` bounded sink used by
`chvsnprintf` (from `memstreams.c`, which is not under `src/`).  Per the
spec, the bounded variant "tracks bytes written vs. capacity and refuses
writes past capacity while still reporting the would-have-been total
length": it accepts the first `size_wo_nul` emitted bytes into the buffer
and drops the rest, `eos` being the number of bytes accepted.  `chvsnprintf`
(lines 513-541, in `src/`) then stores a terminating NUL at `str[ms.eos]`
when `ms.eos < size`, and returns `chvprintf`'s count. -/
def chvsnprintfS (f0 : ℚ) (tmp0 : Buf) (str : Buf) (size : Nat) (fmt : List Char)
    (args : List CArg) : Option (Buf × Int) :=
  let size_wo_nul := if 0 < size then size - 1 else 0
  match chvprintfS f0 tmp0 fmt args with
  | some (.ok out retval _) =>
    let eos := min out.length size_wo_nul
    let str1 := writeList str 0 (out.take size_wo_nul)
    let str2 := if eos < size then bwrite str1 eos NUL else str1
    some (str2, retval)
  | _ => none

/-! ## Specification devices

Pure descriptions of rendered text, used to state the theorems; each is
proved to agree with the corresponding buffer-writing code above. -/

/-- Numeric value of a most-significant-first digit string. -/
def digitsVal (cs : List Char) : Int :=
  cs.foldl (fun a c => a * 10 + ((c.toNat : Int) - 48)) 0

/-- The significant digits of a rendered float: the text before the
exponent marker, with the decimal point removed. -/
def sigChars (cs : List Char) : List Char :=
  (cs.takeWhile (fun c => c ≠ 'E')).filter (fun c => c ≠ '.')

/-- The characters `ftoaPlainLoop` writes, described by recursion on the
precision (proved to agree with the loop below). -/
def plainChars (num : ℚ) (E : Int) : Nat → List Char
  | 0 => []
  | prec + 1 =>
    Char.ofNat ((48 + ctruncQ num).emod 256).toNat ::
      ((if E = 0 ∧ 0 < prec then ['.'] else []) ++
        plainChars ((num - (ctruncQ num : ℚ)) * 10) (E - 1) prec)

/-- The characters the digit loop of `long_to_string_with_divisor` produces,
most-significant first, described at the list level (proved to agree with
the buffer-writing loop below). -/
def ltsChars (l ll : Int) (radix : Nat) : Nat → Option (List Char)
  | 0 => none
  | fuel + 1 =>
    let c := digitChar (l.tmod radix)
    if ll.tdiv radix = 0 then some [c]
    else (ltsChars (l.tdiv radix) (ll.tdiv radix) radix fuel).map (· ++ [c])

/-- The exponent-suffix characters of `ftoaExp`, at the list level. -/
def expChars (E : Int) : Option (List Char) :=
  if 0 ≤ E then (ltsChars E E 10 (E.natAbs + 1)).map (fun cs => 'E' :: '+' :: cs)
  else (ltsChars (-E) (-E) 10 ((-E).natAbs + 1)).map (fun cs => 'E' :: '-' :: cs)

/-- The scientific-tail characters, at the list level (mirrors `ftoaSci`). -/
def ftoaCharsSci (cs1 : List Char) (m : ℚ) (E : Int) (prec : Nat) : Option (List Char) :=
  if 1 ≤ prec then
    match pow10.get? (wrapSub32 prec 2) with
    | none => none
    | some pw =>
      let l2 := ctruncQ ((m - (ctruncQ m : ℚ)) * (pw : ℚ))
      let ll2 := if pw / 10 = 0 then l2 else pw / 10
      match ltsChars l2 ll2 10 (ll2.natAbs + 1) with
      | none => none
      | some cs2 =>
        match expChars E with
        | none => none
        | some csE => some (cs1 ++ '.' :: (cs2 ++ csE))
  else
    match expChars E with
    | none => none
    | some csE => some (cs1 ++ csE)

/-- The characters `ftoa` renders for normalised mantissa `m`, exponent `E`
and (unclamped) precision, at the list level. -/
def ftoaChars (m : ℚ) (E : Int) (precision : Nat) : Option (List Char) :=
  let prec := clampPrec precision
  if E < (prec : Int) ∧ 0 ≤ E then some (plainChars m E prec)
  else
    match ltsChars (ctruncQ m) (ctruncQ m) 10 ((ctruncQ m).natAbs + 1) with
    | none => none
    | some cs1 => ftoaCharsSci cs1 m E prec

/-- The range of the C `double` type, as a predicate on the idealised
rational argument: magnitude at most `10^308` and, when non-zero, at least
`10^-308` (the claims about `chvprintf` runs hold for arguments a real
`double` can take; outside this range the exponent renderer would need more
digit slots than any `double` requires). -/
def dblRange (q : ℚ) : Prop := |q| ≤ 10 ^ 308 ∧ (q ≠ 0 → 1 / 10 ^ 308 ≤ |q|)

/-- Every `double` argument of the list is in the `double` range. -/
def argsOk (args : List CArg) : Prop :=
  ∀ a ∈ args, ∀ q, a = CArg.dbl q → dblRange q

/-- The caller-observable part of one directive: emitted bytes, new cursor,
remaining arguments, and the value stored into the static `f` (the working
buffer is internal). -/
def dirObs : Option (List Char × List Char × List CArg × Buf × Option ℚ) →
    Option (List Char × List Char × List CArg × Option ℚ)
  | none => none
  | some (es, fmt, args, _, nf) => some (es, fmt, args, nf)

/-! ## Basic buffer lemmas -/

theorem bwrite_self (b : Buf) (i : Nat) (c : Char) : bwrite b i c i = c := if_pos rfl

theorem bwrite_other (b : Buf) (i : Nat) (c : Char) {j : Nat} (h : j ≠ i) :
    bwrite b i c j = b j := if_neg h

theorem bufRead_congr {b1 b2 : Buf} {s : Nat} :
    ∀ {n : Nat}, (∀ j, s ≤ j → j < s + n → b1 j = b2 j) →
      bufRead b1 s n = bufRead b2 s n := by
  intro n
  induction n generalizing s with
  | zero => intro _; rfl
  | succ n ih =>
    intro h
    show b1 s :: bufRead b1 (s + 1) n = b2 s :: bufRead b2 (s + 1) n
    rw [h s le_rfl (by omega), ih fun j hj1 hj2 => h j (by omega) (by omega)]

theorem bufRead_length (b : Buf) (s n : Nat) : (bufRead b s n).length = n := by
  induction n generalizing s with
  | zero => rfl
  | succ n ih =>
    show (b s :: bufRead b (s + 1) n).length = n + 1
    simp [ih]

theorem writeList_apply (cs : List Char) : ∀ (b : Buf) (s j : Nat),
    writeList b s cs j =
      if s ≤ j ∧ j - s < cs.length then cs.getD (j - s) NUL else b j := by
  induction cs with
  | nil => intro b s j; simp [writeList]
  | cons c cs ih =>
    intro b s j
    show writeList (bwrite b s c) (s + 1) cs j = _
    rw [ih]
    by_cases h1 : s + 1 ≤ j ∧ j - (s + 1) < cs.length
    · rw [if_pos h1, if_pos ⟨by omega, by simp; omega⟩]
      have : j - s = (j - (s + 1)) + 1 := by omega
      simp [this]
    · rw [if_neg h1]
      by_cases h2 : j = s
      · subst h2
        rw [bwrite_self, if_pos ⟨le_rfl, by simp⟩]
        simp
      · have hneg : ¬(s ≤ j ∧ j - s < (c :: cs).length) := by
          simp only [not_and, not_lt, List.length_cons] at h1 ⊢
          intro hs
          by_cases h3 : s + 1 ≤ j
          · have h4 := h1 h3
            omega
          · omega
        rw [bwrite_other _ _ _ h2, if_neg hneg]

/-! ## Emitted-byte count -/

theorem consRes_ok {es out : List Char} {n1 : Int} {f1 : ℚ} {r : Option PRes} :
    consRes es r = some (.ok out n1 f1) ↔
      ∃ out', r = some (.ok out' n1 f1) ∧ out = es ++ out' := by
  match r with
  | none => simp [consRes]
  | some .ub => simp [consRes]
  | some (.ok o m f) =>
    simp only [consRes]
    constructor
    · intro h
      injection h with h
      injection h with h1 h2 h3
      exact ⟨o, by simp [h2, h3], h1.symm⟩
    · rintro ⟨o', ho', rfl⟩
      injection ho' with ho'
      injection ho' with a b c
      subst a b c
      rfl

/-- The return value of the engine counts exactly the emitted bytes: each
`streamPut` in `chvprintf` is paired with an `n++`. -/
theorem chvLoop_count : ∀ (fuel : Nat) (fmt : List Char) (args : List CArg) (n : Int)
    (buf : Buf) (fstat : ℚ) {out : List Char} {n1 : Int} {f1 : ℚ},
    chvLoop fuel fmt args n buf fstat = some (.ok out n1 f1) →
      n1 = n + out.length := by
  intro fuel
  induction fuel with
  | zero => intro fmt args n buf fstat out n1 f1 h; simp [chvLoop] at h
  | succ fuel ih =>
    intro fmt args n buf fstat out n1 f1 h
    cases fmt with
    | nil => simp [chvLoop] at h
    | cons c fmt1 =>
      by_cases hc : c = NUL
      · rw [chvLoop, if_pos hc] at h
        injection h with h
        injection h with h1 h2 h3
        subst h1 h2
        simp
      · by_cases hp : c = '%'
        · rw [chvLoop, if_neg hc, if_neg (by simp [hp])] at h
          rcases hd : doDirective fmt1 args buf with _ | ⟨es, fmt2, args2, buf2, newF⟩
          · rw [hd] at h; simp at h
          · rw [hd] at h
            rcases consRes_ok.1 h with ⟨out', hrec, rfl⟩
            have := ih fmt2 args2 (n + (es.length : Int)) buf2 (newF.getD fstat) hrec
            simp [this]
            ring
        · rw [chvLoop, if_neg hc, if_pos (by simp [hp])] at h
          rcases consRes_ok.1 h with ⟨out', hrec, rfl⟩
          have := ih fmt1 args (n + 1) buf fstat hrec
          simp [this]
          ring

/-! ## Conditional step equations (used to evaluate the renderers) -/

theorem scaleDown_of_lt {q : ℚ} (E : Int) (h : q < 10) : scaleDown q E = (q, E) := by
  rw [scaleDown]
  simp [not_le.2 h]

theorem scaleDown_of_le {q : ℚ} (E : Int) (h : 10 ≤ q) :
    scaleDown q E = scaleDown (q / 10) (E + 1) := by
  rw [scaleDown]
  simp [h]

theorem scaleUp_of_le {q : ℚ} (E : Int) (h : 1 ≤ q) : scaleUp q E = some (q, E) := by
  rw [scaleUp]
  have h0 : 0 < q := lt_of_lt_of_le one_pos h
  simp [h0, not_lt.2 h]

theorem scaleUp_of_lt {q : ℚ} (E : Int) (h0 : 0 < q) (h : q < 1) :
    scaleUp q E = scaleUp (q * 10) (E - 1) := by
  rw [scaleUp]
  simp [h0, h]

theorem ltsDigits_last {buf : Buf} {q : Nat} {l ll : Int} {radix : Nat} (fuel : Nat)
    (h : ll.tdiv radix = 0) :
    ltsDigits buf q l ll radix (fuel + 1) =
      some (bwrite buf (q - 1) (digitChar (l.tmod radix)), q - 1) := by
  simp [ltsDigits, h]

theorem ltsDigits_cont {buf : Buf} {q : Nat} {l ll : Int} {radix : Nat} (fuel : Nat)
    (h : ll.tdiv radix ≠ 0) :
    ltsDigits buf q l ll radix (fuel + 1) =
      ltsDigits (bwrite buf (q - 1) (digitChar (l.tmod radix))) (q - 1)
        (l.tdiv radix) (ll.tdiv radix) radix fuel := by
  simp [ltsDigits, h]


/-! ## The integer renderer agrees with its list-level description -/

theorem bufRead_append (b : Buf) (s : Nat) : ∀ (n1 n2 : Nat),
    bufRead b s (n1 + n2) = bufRead b s n1 ++ bufRead b (s + n1) n2 := by
  intro n1
  induction n1 generalizing s with
  | zero => intro n2; simp [bufRead]
  | succ n1 ih =>
    intro n2
    rw [show n1 + 1 + n2 = (n1 + n2) + 1 by omega]
    show b s :: bufRead b (s + 1) (n1 + n2) = (b s :: bufRead b (s + 1) n1) ++ _
    rw [ih (s + 1) n2, show s + (n1 + 1) = s + 1 + n1 by omega]
    rfl

theorem natAbs_tdiv_nat (ll : Int) (radix : Nat) :
    (ll.tdiv radix).natAbs = ll.natAbs / radix := by
  rw [Int.natAbs_tdiv]
  simp only [Int.natAbs_ofNat]
  rfl

theorem ltsChars_one_le :
    ∀ (fuel : Nat) (l ll : Int) (radix : Nat) (cs : List Char),
      ltsChars l ll radix fuel = some cs → 1 ≤ cs.length := by
  intro fuel l ll radix cs h
  cases fuel with
  | zero => simp [ltsChars] at h
  | succ fuel =>
    by_cases h0 : ll.tdiv radix = 0
    · simp [ltsChars, h0] at h
      subst h
      simp
    · simp only [ltsChars, h0, if_false, Option.map_eq_some'] at h
      obtain ⟨cs', _, rfl⟩ := h
      simp

theorem ltsChars_some (radix : Nat) (hr : 2 ≤ radix) :
    ∀ (fuel : Nat) (l ll : Int), ll.natAbs < fuel →
      ∃ cs, ltsChars l ll radix fuel = some cs := by
  intro fuel
  induction fuel with
  | zero => intro l ll h; omega
  | succ fuel ih =>
    intro l ll h
    by_cases h0 : ll.tdiv radix = 0
    · exact ⟨[digitChar (l.tmod radix)], by simp [ltsChars, h0]⟩
    · have hlt : (ll.tdiv radix).natAbs < fuel := by
        rw [natAbs_tdiv_nat]
        have h1 : ll.natAbs ≠ 0 := by
          intro hz
          exact h0 (by simp [Int.natAbs_eq_zero.1 hz])
        have h2 : ll.natAbs / radix < ll.natAbs := Nat.div_lt_self (by omega) (by omega)
        omega
      obtain ⟨cs, hcs⟩ := ih (l.tdiv radix) (ll.tdiv radix) hlt
      exact ⟨cs ++ [digitChar (l.tmod radix)], by simp [ltsChars, h0, hcs]⟩

theorem ltsChars_length (radix : Nat) (_hr : 2 ≤ radix) :
    ∀ (fuel : Nat) (l ll : Int) (cs : List Char), ltsChars l ll radix fuel = some cs →
      ∀ k, 1 ≤ k → ll.natAbs < radix ^ k → cs.length ≤ k := by
  intro fuel
  induction fuel with
  | zero => intro l ll cs h; simp [ltsChars] at h
  | succ fuel ih =>
    intro l ll cs h k hk hlt
    by_cases h0 : ll.tdiv radix = 0
    · simp [ltsChars, h0] at h
      subst h
      simpa using hk
    · simp only [ltsChars, h0, if_false, Option.map_eq_some'] at h
      obtain ⟨cs', hcs', rfl⟩ := h
      have hk2 : 2 ≤ k := by
        rcases Nat.lt_or_ge k 2 with hk1 | hk1
        · exfalso
          apply h0
          have hk1' : k = 1 := by omega
          subst hk1'
          rw [pow_one] at hlt
          have hz : ll.natAbs / radix = 0 := Nat.div_eq_of_lt hlt
          have h2 := natAbs_tdiv_nat ll radix
          rw [hz] at h2
          exact Int.natAbs_eq_zero.1 h2
        · exact hk1
      have hstep : (ll.tdiv radix).natAbs < radix ^ (k - 1) := by
        rw [natAbs_tdiv_nat]
        have hpow : radix ^ k = radix ^ (k - 1) * radix := by
          conv_lhs => rw [show k = (k - 1) + 1 by omega]
          rw [pow_succ]
        refine Nat.div_lt_of_lt_mul ?_
        rw [Nat.mul_comm, ← hpow]
        exact hlt
      have := ih _ _ _ hcs' (k - 1) (by omega) hstep
      simp only [List.length_append, List.length_cons, List.length_nil]
      omega

theorem ltsDigits_spec :
    ∀ (fuel : Nat) (b : Buf) (q : Nat) (l ll : Int) (radix : Nat) (cs : List Char),
      ltsChars l ll radix fuel = some cs → cs.length ≤ q →
      ∃ c, ltsDigits b q l ll radix fuel = some (c, q - cs.length) ∧
        bufRead c (q - cs.length) cs.length = cs ∧
        (∀ j, j < q - cs.length ∨ q ≤ j → c j = b j) := by
  intro fuel
  induction fuel with
  | zero => intro b q l ll radix cs h; simp [ltsChars] at h
  | succ fuel ih =>
    intro b q l ll radix cs h hq
    have h1le : 1 ≤ cs.length := ltsChars_one_le _ _ _ _ _ h
    by_cases h0 : ll.tdiv radix = 0
    · simp only [ltsChars, h0, if_true] at h
      injection h with h
      subst h
      refine ⟨bwrite b (q - 1) (digitChar (l.tmod radix)), ?_, ?_, ?_⟩
      · simp [ltsDigits, h0]
      · show bwrite b (q - 1) (digitChar (l.tmod radix)) (q - 1) :: bufRead _ (q - 1 + 1) 0 = _
        rw [bwrite_self]
        rfl
      · intro j hj
        refine bwrite_other _ _ _ ?_
        simp only [List.length_cons, List.length_nil] at hj
        omega
    · simp only [ltsChars, h0, if_false, Option.map_eq_some'] at h
      obtain ⟨cs', hcs', rfl⟩ := h
      simp only [List.length_append, List.length_cons, List.length_nil] at hq h1le ⊢
      have h1le' : 1 ≤ cs'.length := ltsChars_one_le _ _ _ _ _ hcs'
      have hq1 : cs'.length ≤ q - 1 := by omega
      obtain ⟨c, hdig, hread, hfr⟩ :=
        ih (bwrite b (q - 1) (digitChar (l.tmod radix))) (q - 1) (l.tdiv radix)
          (ll.tdiv radix) radix cs' hcs' hq1
      refine ⟨c, ?_, ?_, ?_⟩
      · rw [show q - (cs'.length + 1) = q - 1 - cs'.length by omega]
        simp [ltsDigits, h0, hdig]
      · rw [show q - (cs'.length + 1) = q - 1 - cs'.length by omega,
          bufRead_append c (q - 1 - cs'.length) cs'.length 1, hread]
        congr 1
        show [c (q - 1 - cs'.length + cs'.length)] = _
        rw [show q - 1 - cs'.length + cs'.length = q - 1 by omega]
        rw [hfr (q - 1) (Or.inr le_rfl), bwrite_self]
      · intro j hj
        rw [hfr j (by omega)]
        refine bwrite_other _ _ _ ?_
        omega

theorem ltsCopy_spec :
    ∀ (i : Nat) (b : Buf) (p q : Nat), p ≤ q →
      (ltsCopy b p q i).2 = p + i ∧
      bufRead (ltsCopy b p q i).1 p i = bufRead b q i ∧
      (∀ j, j < p → (ltsCopy b p q i).1 j = b j) := by
  intro i
  induction i with
  | zero => intro b p q h; exact ⟨rfl, rfl, fun j _ => rfl⟩
  | succ i ih =>
    intro b p q hpq
    obtain ⟨h1, h2, h3⟩ := ih (bwrite b p (b q)) (p + 1) (q + 1) (by omega)
    refine ⟨?_, ?_, ?_⟩
    · show (ltsCopy (bwrite b p (b q)) (p + 1) (q + 1) i).2 = _
      rw [h1]
      omega
    · show bufRead (ltsCopy (bwrite b p (b q)) (p + 1) (q + 1) i).1 p (i + 1) = _
      rw [show i + 1 = 1 + i by omega, bufRead_append, bufRead_append]
      congr 1
      · show [(ltsCopy (bwrite b p (b q)) (p + 1) (q + 1) i).1 p] = [b q]
        rw [h3 p (by omega), bwrite_self]
      · rw [h2]
        refine bufRead_congr ?_
        intro j hj1 hj2
        exact bwrite_other _ _ _ (by omega)
    · intro j hj
      show (ltsCopy (bwrite b p (b q)) (p + 1) (q + 1) i).1 j = b j
      rw [h3 j (by omega)]
      exact bwrite_other _ _ _ (by omega)

/-- Functional characterisation of `long_to_string_with_divisor`. -/
theorem lts_spec (b : Buf) (p : Nat) (num : Int) (radix : Nat) (div : Int)
    (hr : 2 ≤ radix)
    (hlt : (if div = 0 then num else div).natAbs < radix ^ MAX_FILLER) :
    ∃ cs c, ltsChars num (if div = 0 then num else div) radix
        ((if div = 0 then num else div).natAbs + 1) = some cs ∧
      cs.length ≤ MAX_FILLER ∧
      long_to_string_with_divisor b p num radix div = some (c, p + cs.length) ∧
      bufRead c p cs.length = cs ∧
      (∀ j, j < p → c j = b j) := by
  set ll := if div = 0 then num else div with hll
  obtain ⟨cs, hcs⟩ := ltsChars_some radix hr (ll.natAbs + 1) num ll (by omega)
  have hlen : cs.length ≤ MAX_FILLER :=
    ltsChars_length radix hr _ _ _ _ hcs MAX_FILLER (by norm_num [MAX_FILLER]) hlt
  obtain ⟨c1, hdig, hread, hfr⟩ :=
    ltsDigits_spec (ll.natAbs + 1) b (p + MAX_FILLER) num ll radix cs hcs (by omega)
  obtain ⟨hc2, hr2, hf2⟩ :=
    ltsCopy_spec cs.length c1 p (p + MAX_FILLER - cs.length) (by omega)
  refine ⟨cs, (ltsCopy c1 p (p + MAX_FILLER - cs.length) cs.length).1, hcs, hlen, ?_, ?_, ?_⟩
  · rw [long_to_string_with_divisor, ← hll, hdig]
    have hi : p + MAX_FILLER - (p + MAX_FILLER - cs.length) = cs.length := by omega
    show some (ltsCopy c1 p (p + MAX_FILLER - cs.length)
        (p + MAX_FILLER - (p + MAX_FILLER - cs.length))) = _
    rw [hi]
    exact congrArg some (Prod.ext rfl hc2)
  · rw [hr2, hread]
  · intro j hj
    rw [hf2 j hj, hfr j (Or.inl (by omega))]

/-! ## Normalisation characterisation -/

theorem scaleDown_spec : ∀ (q : ℚ) (E : Int), 0 < q →
    0 < (scaleDown q E).1 ∧ (scaleDown q E).1 < 10 ∧
    (scaleDown q E).1 * (10 : ℚ) ^ ((scaleDown q E).2 - E) = q ∧
    E ≤ (scaleDown q E).2 ∧ (1 ≤ q → 1 ≤ (scaleDown q E).1) := by
  intro q E
  induction q, E using scaleDown.induct with
  | case1 q E h ih =>
    intro hq
    rw [scaleDown_of_le E h]
    obtain ⟨i1, i2, i3, i4, i5⟩ := ih (by positivity)
    refine ⟨i1, i2, ?_, by omega, fun _ => i5 (by linarith)⟩
    have hne : (10 : ℚ) ≠ 0 := by norm_num
    have hsplit : (scaleDown (q / 10) (E + 1)).2 - E =
        ((scaleDown (q / 10) (E + 1)).2 - (E + 1)) + 1 := by ring
    rw [hsplit, zpow_add₀ hne, zpow_one, ← mul_assoc, i3]
    field_simp
  | case2 q E h =>
    intro hq
    rw [scaleDown_of_lt E (by linarith)]
    exact ⟨hq, by linarith, by simp, le_rfl, fun h1 => h1⟩

theorem scaleUp_spec : ∀ (q : ℚ) (E : Int), 0 < q → q < 10 →
    ∃ m E', scaleUp q E = some (m, E') ∧ 1 ≤ m ∧ m < 10 ∧
      m * (10 : ℚ) ^ (E' - E) = q ∧ E' ≤ E := by
  intro q E
  induction q, E using scaleUp.induct with
  | case1 q E h0 h1 ih =>
    intro _ _
    rw [scaleUp_of_lt E h0 h1]
    obtain ⟨m, E', hs, i1, i2, i3, i4⟩ := ih (by positivity) (by linarith)
    refine ⟨m, E', hs, i1, i2, ?_, by omega⟩
    have hne : (10 : ℚ) ≠ 0 := by norm_num
    have hsplit : E' - E = (E' - (E - 1)) + -1 := by ring
    rw [hsplit, zpow_add₀ hne, ← mul_assoc, i3]
    field_simp
  | case2 q E h0 h1 =>
    intro _ hq10
    rw [scaleUp_of_le E (not_lt.1 h1)]
    exact ⟨q, E, rfl, not_lt.1 h1, hq10, by simp, le_rfl⟩
  | case3 q E h0 =>
    intro hq _
    exact absurd hq h0

theorem normalizeQ_pos_spec (q : ℚ) (h : 0 < q) :
    ∃ m E, normalizeQ q = some (m, E) ∧ 1 ≤ m ∧ m < 10 ∧ m * (10 : ℚ) ^ E = q := by
  rw [normalizeQ, if_neg (by positivity)]
  obtain ⟨d1, d2, d3, _, _⟩ := scaleDown_spec q 0 h
  obtain ⟨m, E', hs, i1, i2, i3, _⟩ := scaleUp_spec (scaleDown q 0).1 (scaleDown q 0).2 d1 d2
  refine ⟨m, E', hs, i1, i2, ?_⟩
  have hne : (10 : ℚ) ≠ 0 := by norm_num
  have hsplit : E' = (E' - (scaleDown q 0).2) + ((scaleDown q 0).2 - 0) := by ring
  rw [hsplit, zpow_add₀ hne, ← mul_assoc, i3, d3]

theorem normalizeQ_zero : normalizeQ 0 = some (0, 0) := by
  simp [normalizeQ]

theorem normalizeQ_neg (q : ℚ) (h : q < 0) : normalizeQ q = none := by
  rw [normalizeQ, if_neg (ne_of_lt h), scaleDown_of_lt 0 (by linarith), scaleUp]
  simp [not_lt.2 (le_of_lt h)]

theorem normalizeQ_nonneg (q m : ℚ) (E : Int) (hn : normalizeQ q = some (m, E))
    (hq : 0 ≤ q) : 0 ≤ m ∧ m < 10 := by
  rcases eq_or_lt_of_le hq with hq0 | hq0
  · rw [← hq0, normalizeQ_zero] at hn
    injection hn with hn
    injection hn with h1 h2
    subst h1
    norm_num
  · obtain ⟨m', E', hs, i1, i2, _⟩ := normalizeQ_pos_spec q hq0
    rw [hs] at hn
    injection hn with hn
    injection hn with h1 h2
    subst h1
    exact ⟨by linarith, i2⟩

theorem normalizeQ_E_bound (q m : ℚ) (E : Int) (hn : normalizeQ q = some (m, E))
    (hq : 0 ≤ q) (hr : dblRange q) : E.natAbs < 10 ^ MAX_FILLER := by
  rcases eq_or_lt_of_le hq with hq0 | hq0
  · rw [← hq0, normalizeQ_zero] at hn
    injection hn with hn
    injection hn with h1 h2
    subst h2
    norm_num [MAX_FILLER]
  · obtain ⟨m', E', hs, i1, i2, i3⟩ := normalizeQ_pos_spec q hq0
    rw [hs] at hn
    injection hn with hn
    injection hn with h1 h2
    rw [h1] at i1 i2 i3
    rw [h2] at i3
    obtain ⟨hub, hlb⟩ := hr
    rw [abs_of_pos hq0] at hub hlb
    have h10 : (1 : ℚ) < 10 := by norm_num
    have hEub : E ≤ 308 := by
      have hle : (10 : ℚ) ^ E ≤ 10 ^ (308 : Int) := by
        calc (10 : ℚ) ^ E ≤ m * 10 ^ E := le_mul_of_one_le_left (by positivity) i1
        _ = q := i3
        _ ≤ 10 ^ 308 := hub
        _ = 10 ^ (308 : Int) := by norm_num
      exact (zpow_le_zpow_iff_right₀ h10).1 hle
    have hElb : -309 ≤ E := by
      have hlb' := hlb (by positivity)
      have hlt : (10 : ℚ) ^ (-308 : Int) < 10 ^ (E + 1) := by
        calc (10 : ℚ) ^ (-308 : Int) = 1 / 10 ^ 308 := by
              rw [zpow_neg, one_div]
              norm_num
        _ ≤ q := hlb'
        _ = m * 10 ^ E := i3.symm
        _ < 10 * 10 ^ E := by
              have := zpow_pos (show (0:ℚ) < 10 by norm_num) E
              nlinarith
        _ = 10 ^ (E + 1) := by
              rw [zpow_add₀ (show (10:ℚ) ≠ 0 by norm_num), zpow_one]
              ring
      have := (zpow_lt_zpow_iff_right₀ h10).1 hlt
      omega
    norm_num [MAX_FILLER]
    omega

/-! ## The float renderer agrees with its list-level description -/

theorem ftoaPlainLoop_spec : ∀ (prec : Nat) (b : Buf) (p : Nat) (m : ℚ) (E : Int),
    (ftoaPlainLoop b p m E prec).2 = p + (plainChars m E prec).length ∧
    bufRead (ftoaPlainLoop b p m E prec).1 p (plainChars m E prec).length =
      plainChars m E prec ∧
    (∀ j, j < p → (ftoaPlainLoop b p m E prec).1 j = b j) := by
  intro prec
  induction prec with
  | zero => intro b p m E; exact ⟨by simp [ftoaPlainLoop, plainChars], rfl, fun j _ => rfl⟩
  | succ prec ih =>
    intro b p m E
    by_cases hc : E = 0 ∧ 0 < prec
    · have hloop : ftoaPlainLoop b p m E (prec + 1) =
          ftoaPlainLoop (bwrite (bwrite b p (Char.ofNat ((48 + ctruncQ m).emod 256).toNat))
            (p + 1) '.') (p + 2) ((m - (ctruncQ m : ℚ)) * 10) (E - 1) prec := by
        simp [ftoaPlainLoop, hc]
      have hcs : plainChars m E (prec + 1) =
          Char.ofNat ((48 + ctruncQ m).emod 256).toNat :: '.' ::
            plainChars ((m - (ctruncQ m : ℚ)) * 10) (E - 1) prec := by
        simp [plainChars, hc]
      obtain ⟨i1, i2, i3⟩ := ih (bwrite (bwrite b p (Char.ofNat ((48 + ctruncQ m).emod 256).toNat))
        (p + 1) '.') (p + 2) ((m - (ctruncQ m : ℚ)) * 10) (E - 1)
      rw [hloop, hcs]
      refine ⟨by rw [i1]; simp only [List.length_cons]; omega, ?_, ?_⟩
      · show _ :: bufRead _ (p + 1) _ = _
        show _ :: _ :: bufRead _ (p + 1 + 1) _ = _
        rw [show p + 1 + 1 = p + 2 from rfl, i2,
          i3 p (by omega), i3 (p + 1) (by omega),
          bwrite_other _ _ _ (by omega : p ≠ p + 1), bwrite_self, bwrite_self]
      · intro j hj
        rw [i3 j (by omega), bwrite_other _ _ _ (by omega), bwrite_other _ _ _ (by omega)]
    · have hloop : ftoaPlainLoop b p m E (prec + 1) =
          ftoaPlainLoop (bwrite b p (Char.ofNat ((48 + ctruncQ m).emod 256).toNat))
            (p + 1) ((m - (ctruncQ m : ℚ)) * 10) (E - 1) prec := by
        simp [ftoaPlainLoop, hc]
      have hcs : plainChars m E (prec + 1) =
          Char.ofNat ((48 + ctruncQ m).emod 256).toNat ::
            plainChars ((m - (ctruncQ m : ℚ)) * 10) (E - 1) prec := by
        simp [plainChars, hc]
      obtain ⟨i1, i2, i3⟩ := ih (bwrite b p (Char.ofNat ((48 + ctruncQ m).emod 256).toNat))
        (p + 1) ((m - (ctruncQ m : ℚ)) * 10) (E - 1)
      rw [hloop, hcs]
      refine ⟨by rw [i1]; simp only [List.length_cons]; omega, ?_, ?_⟩
      · show _ :: bufRead _ (p + 1) _ = _
        rw [i2, i3 p (by omega), bwrite_self]
      · intro j hj
        rw [i3 j (by omega), bwrite_other _ _ _ (by omega)]

theorem ftoaExp_spec (b : Buf) (p : Nat) (E : Int) (hE : E.natAbs < 10 ^ MAX_FILLER) :
    ∃ cs c, expChars E = some cs ∧ ftoaExp b p E = some (c, p + cs.length) ∧
      bufRead c p cs.length = cs ∧ (∀ j, j < p → c j = b j) := by
  by_cases h0 : 0 ≤ E
  · obtain ⟨ds, c, hds, hlen, hlts, hrd, hfr⟩ :=
      lts_spec (bwrite (bwrite b p 'E') (p + 1) '+') (p + 2) E 10 0 (by norm_num)
        (by simpa using hE)
    simp only [if_true] at hds
    refine ⟨'E' :: '+' :: ds, c, ?_, ?_, ?_, ?_⟩
    · rw [expChars, if_pos h0, hds]
      rfl
    · rw [ftoaExp, if_pos h0, hlts]
      simp only [List.length_cons]
      congr 2
      omega
    · show c p :: c (p + 1) :: bufRead c (p + 1 + 1) ds.length = _
      rw [show p + 1 + 1 = p + 2 from rfl, hrd,
        hfr p (by omega), hfr (p + 1) (by omega),
        bwrite_other _ _ _ (by omega : p ≠ p + 1), bwrite_self, bwrite_self]
    · intro j hj
      rw [hfr j (by omega), bwrite_other _ _ _ (by omega), bwrite_other _ _ _ (by omega)]
  · obtain ⟨ds, c, hds, hlen, hlts, hrd, hfr⟩ :=
      lts_spec (bwrite (bwrite b p 'E') (p + 1) '-') (p + 2) (-E) 10 0 (by norm_num)
        (by simpa using hE)
    simp only [if_true] at hds
    refine ⟨'E' :: '-' :: ds, c, ?_, ?_, ?_, ?_⟩
    · rw [expChars, if_neg h0, hds]
      rfl
    · rw [ftoaExp, if_neg h0, hlts]
      simp only [List.length_cons]
      congr 2
      omega
    · show c p :: c (p + 1) :: bufRead c (p + 1 + 1) ds.length = _
      rw [show p + 1 + 1 = p + 2 from rfl, hrd,
        hfr p (by omega), hfr (p + 1) (by omega),
        bwrite_other _ _ _ (by omega : p ≠ p + 1), bwrite_self, bwrite_self]
    · intro j hj
      rw [hfr j (by omega), bwrite_other _ _ _ (by omega), bwrite_other _ _ _ (by omega)]


theorem clampPrec_bounds (precision : Nat) :
    1 ≤ clampPrec precision ∧ clampPrec precision ≤ 9 := by
  rw [clampPrec]
  by_cases h : precision = 0 ∨ FLOAT_PRECISION < precision
  · rw [if_pos h]
    norm_num [FLOAT_PRECISION]
  · rw [if_neg h]
    push_neg at h
    norm_num [FLOAT_PRECISION] at h
    omega

theorem pow10_div10 (i : Nat) (pw : Int) (h : pow10.get? i = some pw) :
    1 ≤ pw / 10 ∧ pw / 10 ≤ 100000000 := by
  have hi : i < pow10.length := by
    by_contra hlt
    rw [List.get?_eq_none.2 (by omega)] at h
    exact Option.noConfusion h
  have hi9 : i < 9 := by simpa [pow10] using hi
  interval_cases i <;> (simp [pow10] at h; omega)

theorem ctruncQ_nonneg_natAbs (m : ℚ) (hm0 : 0 ≤ m) (hm10 : m < 10) :
    (ctruncQ m).natAbs ≤ 9 := by
  rw [ctruncQ, if_neg (not_lt.2 hm0)]
  have h1 : 0 ≤ ⌊m⌋ := Int.floor_nonneg.2 hm0
  have h2 : ⌊m⌋ < 10 := by
    have := Int.floor_le m
    have : ⌊m⌋ ≤ 9 := by
      by_contra hc
      push_neg at hc
      have h3 : (10 : ℚ) ≤ (⌊m⌋ : ℚ) := by exact_mod_cast hc
      have h4 := Int.floor_le m
      linarith
    omega
  omega


/-- Functional characterisation of `ftoa`: whenever the list-level
description succeeds, the renderer writes exactly those characters at
`[p, p + length)` and touches nothing below `p`; when the description
fails (the `pow10[-1]` case), the renderer fails too. -/
theorem ftoa_spec (b : Buf) (p : Nat) (num m : ℚ) (E : Int) (precision : Nat)
    (hn : normalizeQ num = some (m, E)) (hm0 : 0 ≤ m) (hm10 : m < 10)
    (hE : E.natAbs < 10 ^ MAX_FILLER) :
    (ftoaChars m E precision = none → ftoa b p num precision = none) ∧
    (∀ cs, ftoaChars m E precision = some cs →
      ∃ c, ftoa b p num precision = some (c, p + cs.length) ∧
        bufRead c p cs.length = cs ∧ (∀ j, j < p → c j = b j)) := by
  have hprec := clampPrec_bounds precision
  have hf0 : ftoa b p num precision = ftoaCore b p m E precision := by
    unfold ftoa
    rw [hn]
  by_cases hplain : E < (clampPrec precision : Int) ∧ 0 ≤ E
  · have hfc : ftoaChars m E precision = some (plainChars m E (clampPrec precision)) := by
      unfold ftoaChars
      show (if E < ((clampPrec precision : Nat) : Int) ∧ 0 ≤ E
        then some (plainChars m E (clampPrec precision)) else _) = _
      rw [if_pos hplain]
    have hf : ftoa b p num precision = some (ftoaPlainLoop b p m E (clampPrec precision)) := by
      rw [hf0]
      unfold ftoaCore
      show (if E < ((clampPrec precision : Nat) : Int) ∧ 0 ≤ E
        then some (ftoaPlainLoop b p m E (clampPrec precision)) else _) = _
      rw [if_pos hplain]
    obtain ⟨i1, i2, i3⟩ := ftoaPlainLoop_spec (clampPrec precision) b p m E
    refine ⟨fun hcontra => ?_, fun cs hcs => ?_⟩
    · rw [hfc] at hcontra
      exact Option.noConfusion hcontra
    · rw [hfc] at hcs
      injection hcs with hcs
      subst hcs
      exact ⟨_, by rw [hf]; exact congrArg some (Prod.ext rfl i1), i2, i3⟩
  · have htr : ¬ m < 0 := not_lt.2 hm0
    have habs : (if (0 : Int) = 0 then ctruncQ m else 0).natAbs < 10 ^ MAX_FILLER := by
      simp only [if_pos rfl]
      have := ctruncQ_nonneg_natAbs m hm0 hm10
      norm_num [MAX_FILLER]
      omega
    obtain ⟨cs1, c1, hcs1, hlen1, hlts1, hrd1, hfr1⟩ :=
      lts_spec b p (ctruncQ m) 10 0 (by norm_num) habs
    simp only [if_true] at hcs1
    have h1p : 1 ≤ clampPrec precision := hprec.1
    -- reduce both sides to their scientific tails
    have hfc0 : ftoaChars m E precision = ftoaCharsSci cs1 m E (clampPrec precision) := by
      unfold ftoaChars
      show (if E < ((clampPrec precision : Nat) : Int) ∧ 0 ≤ E
        then some (plainChars m E (clampPrec precision)) else _) = _
      rw [if_neg hplain, hcs1]
    have hf1 : ftoa b p num precision = ftoaSci c1 (p + cs1.length) m E (clampPrec precision) := by
      rw [hf0]
      unfold ftoaCore
      show (if E < ((clampPrec precision : Nat) : Int) ∧ 0 ≤ E
        then some (ftoaPlainLoop b p m E (clampPrec precision)) else _) = _
      rw [if_neg hplain, hlts1]
    rcases hpw : pow10.get? (wrapSub32 (clampPrec precision) 2) with _ | pw
    · have hfc : ftoaChars m E precision = none := by
        rw [hfc0]
        unfold ftoaCharsSci
        rw [if_pos h1p, hpw]
      have hf : ftoa b p num precision = none := by
        rw [hf1]
        unfold ftoaSci
        rw [if_pos h1p, hpw]
      exact ⟨fun _ => hf, fun cs hcs => absurd (hfc ▸ hcs) (by simp)⟩
    · obtain ⟨hpw1, hpw2⟩ := pow10_div10 _ _ hpw
      have hpwne : ¬ pw / 10 = 0 := by omega
      have habs2 : (if pw / 10 = 0 then ctruncQ ((m - (ctruncQ m : ℚ)) * (pw : ℚ))
          else pw / 10).natAbs < 10 ^ MAX_FILLER := by
        rw [if_neg hpwne]
        norm_num [MAX_FILLER]
        omega
      obtain ⟨cs2, c2, hcs2, hlen2, hlts2, hrd2, hfr2⟩ :=
        lts_spec (bwrite c1 (p + cs1.length) '.') (p + cs1.length + 1)
          (ctruncQ ((m - (ctruncQ m : ℚ)) * (pw : ℚ))) 10 (pw / 10) (by norm_num) habs2
      obtain ⟨csE, cE, hcsE, hltsE, hrdE, hfrE⟩ :=
        ftoaExp_spec c2 (p + cs1.length + 1 + cs2.length) E hE
      have hfc : ftoaChars m E precision = some (cs1 ++ '.' :: (cs2 ++ csE)) := by
        rw [hfc0]
        unfold ftoaCharsSci
        rw [if_pos h1p, hpw]
        show (match ltsChars (ctruncQ ((m - (ctruncQ m : ℚ)) * (pw : ℚ)))
            (if pw / 10 = 0 then ctruncQ ((m - (ctruncQ m : ℚ)) * (pw : ℚ)) else pw / 10) 10
            ((if pw / 10 = 0 then ctruncQ ((m - (ctruncQ m : ℚ)) * (pw : ℚ))
              else pw / 10).natAbs + 1) with
          | none => none
          | some cs2 =>
            match expChars E with
            | none => none
            | some csE => some (cs1 ++ '.' :: (cs2 ++ csE))) = _
        rw [hcs2, hcsE]
      have hf : ftoa b p num precision =
          some (cE, p + cs1.length + 1 + cs2.length + csE.length) := by
        rw [hf1]
        unfold ftoaSci
        rw [if_pos h1p, hpw]
        show (match long_to_string_with_divisor (bwrite c1 (p + cs1.length) '.')
            (p + cs1.length + 1) (ctruncQ ((m - (ctruncQ m : ℚ)) * (pw : ℚ))) 10 (pw / 10) with
          | none => none
          | some (buf3, p3) => ftoaExp buf3 p3 E) = _
        rw [hlts2]
        exact hltsE
      refine ⟨fun hcontra => by rw [hfc] at hcontra; exact Option.noConfusion hcontra,
        fun cs hcs => ?_⟩
      rw [hfc] at hcs
      injection hcs with hcs
      subst hcs
      have hlenq : (cs1 ++ '.' :: (cs2 ++ csE)).length =
          cs1.length + (1 + (cs2.length + csE.length)) := by
        simp
        omega
      refine ⟨cE, ?_, ?_, ?_⟩
      · rw [hf, hlenq, show p + (cs1.length + (1 + (cs2.length + csE.length))) =
          p + cs1.length + 1 + cs2.length + csE.length by omega]
      · have e1 : bufRead cE p cs1.length = cs1 := by
          refine Eq.trans (bufRead_congr ?_) hrd1
          intro j hj1 hj2
          rw [hfrE j (by omega), hfr2 j (by omega), bwrite_other _ _ _ (by omega)]
        have e2 : bufRead cE (p + cs1.length) 1 = ['.'] := by
          show [cE (p + cs1.length)] = ['.']
          rw [hfrE _ (by omega), hfr2 _ (by omega), bwrite_self]
        have e3 : bufRead cE (p + cs1.length + 1) cs2.length = cs2 := by
          refine Eq.trans (bufRead_congr ?_) hrd2
          intro j hj1 hj2
          rw [hfrE j (by omega)]
        rw [hlenq, bufRead_append, bufRead_append cE (p + cs1.length) 1 (cs2.length + csE.length),
          bufRead_append cE (p + cs1.length + 1) cs2.length csE.length, e1, e2, e3, hrdE]
        rfl
      · intro j hj
        rw [hfrE j (by omega), hfr2 j (by omega), bwrite_other _ _ _ (by omega),
          hfr1 j (by omega)]

/-! ## State independence support (C9) -/

theorem toSigned32_natAbs_le (v : Nat) : (toSigned32 v).natAbs ≤ 2 ^ 31 := by
  unfold toSigned32
  have h : v % 2 ^ 32 < 2 ^ 32 := Nat.mod_lt _ (by norm_num)
  by_cases hc : v % 2 ^ 32 < 2 ^ 31
  · rw [if_pos hc]; omega
  · rw [if_neg hc]; omega

theorem neg32_natAbs_le (l : Int) : (neg32 l).natAbs ≤ 2 ^ 31 := toSigned32_natAbs_le _

theorem argsOk_tail {a : CArg} {args : List CArg} (h : argsOk (a :: args)) : argsOk args :=
  fun x hx q hq => h x (List.mem_cons_of_mem a hx) q hq

theorem vaInt_argsOk {args : List CArg} {v : Int} {args1 : List CArg}
    (h : vaInt args = some (v, args1)) (hok : argsOk args) : argsOk args1 := by
  cases args with
  | nil => exact Option.noConfusion h
  | cons a r =>
    cases a with
    | word w =>
      injection h with h
      injection h with h1 h2
      subst h2
      exact argsOk_tail hok
    | str s => exact Option.noConfusion h
    | dbl q => exact Option.noConfusion h

theorem vaInt_natAbs_le {args : List CArg} {v : Int} {args1 : List CArg}
    (h : vaInt args = some (v, args1)) : v.natAbs ≤ 2 ^ 31 := by
  cases args with
  | nil => exact Option.noConfusion h
  | cons a r =>
    cases a with
    | word w =>
      injection h with h
      injection h with h1 h2
      subst h1
      exact toSigned32_natAbs_le w
    | str s => exact Option.noConfusion h
    | dbl q => exact Option.noConfusion h

theorem vaUnsigned_argsOk {args : List CArg} {v : Nat} {args1 : List CArg}
    (h : vaUnsigned args = some (v, args1)) (hok : argsOk args) : argsOk args1 := by
  cases args with
  | nil => exact Option.noConfusion h
  | cons a r =>
    cases a with
    | word w =>
      injection h with h
      injection h with h1 h2
      subst h2
      exact argsOk_tail hok
    | str s => exact Option.noConfusion h
    | dbl q => exact Option.noConfusion h

theorem vaStr_argsOk {args : List CArg} {v : Option (List Char)} {args1 : List CArg}
    (h : vaStr args = some (v, args1)) (hok : argsOk args) : argsOk args1 := by
  cases args with
  | nil => exact Option.noConfusion h
  | cons a r =>
    cases a with
    | word w => exact Option.noConfusion h
    | str s =>
      injection h with h
      injection h with h1 h2
      subst h2
      exact argsOk_tail hok
    | dbl q => exact Option.noConfusion h

theorem vaDouble_argsOk {args : List CArg} {q : ℚ} {args1 : List CArg}
    (h : vaDouble args = some (q, args1)) (hok : argsOk args) : argsOk args1 := by
  cases args with
  | nil => exact Option.noConfusion h
  | cons a r =>
    cases a with
    | word w => exact Option.noConfusion h
    | str s => exact Option.noConfusion h
    | dbl q0 =>
      injection h with h
      injection h with h1 h2
      subst h2
      exact argsOk_tail hok

theorem vaDouble_dblRange {args : List CArg} {q : ℚ} {args1 : List CArg}
    (h : vaDouble args = some (q, args1)) (hok : argsOk args) : dblRange q := by
  cases args with
  | nil => exact Option.noConfusion h
  | cons a r =>
    cases a with
    | word w => exact Option.noConfusion h
    | str s => exact Option.noConfusion h
    | dbl q0 =>
      injection h with h
      injection h with h1 h2
      subst h1
      exact hok _ (List.mem_cons_self _ _) q0 rfl

theorem dblRange_neg {q : ℚ} (h : dblRange q) : dblRange (-q) := by
  obtain ⟨h1, h2⟩ := h
  refine ⟨by rwa [abs_neg], fun hne => ?_⟩
  rw [abs_neg]
  exact h2 (by simpa using hne)

theorem parseNum_argsOk : ∀ (fmt : List Char) (args : List CArg) (acc : Int)
    {w : Int} {c : Char} {fmt1 : List Char} {args1 : List CArg},
    parseNum fmt args acc = some (w, c, fmt1, args1) → argsOk args → argsOk args1 := by
  intro fmt
  induction fmt with
  | nil =>
    intro args acc w c fmt1 args1 h
    exact Option.noConfusion h
  | cons ch rest ih =>
    intro args acc w c fmt1 args1 h hok
    have h2 : (if '0' ≤ ch ∧ ch ≤ '9' then
        parseNum rest args (acc * 10 + ((ch.toNat : Int) - 48))
      else if ch = '*' then
        match vaInt args with
        | none => none
        | some (v, args1) => parseNum rest args1 (acc * 10 + v.emod 256)
      else some (acc, ch, rest, args)) = some (w, c, fmt1, args1) := h
    by_cases h1 : '0' ≤ ch ∧ ch ≤ '9'
    · rw [if_pos h1] at h2
      exact ih _ _ h2 hok
    · rw [if_neg h1] at h2
      by_cases hs : ch = '*'
      · rw [if_pos hs] at h2
        rcases hvv : vaInt args with _ | ⟨v, argsA⟩
        · rw [hvv] at h2
          exact Option.noConfusion h2
        · rw [hvv] at h2
          exact ih _ _ h2 (vaInt_argsOk hvv hok)
      · rw [if_neg hs] at h2
        injection h2 with h2
        injection h2 with ha h2
        injection h2 with hb h2
        injection h2 with hc hd
        subst hd
        exact hok

theorem ch_ltoa_spec (b : Buf) (p : Nat) (num : Int) (radix : Nat) (hr : 2 ≤ radix)
    (hnum : num.natAbs < radix ^ MAX_FILLER) :
    ∃ cs c, ltsChars num num radix (num.natAbs + 1) = some cs ∧
      ch_ltoa b p num radix = some (c, p + cs.length) ∧
      bufRead c p cs.length = cs ∧ (∀ j, j < p → c j = b j) := by
  obtain ⟨cs, c, h1, _, h3, h4, h5⟩ := lts_spec b p num radix 0 hr (by simpa using hnum)
  simp only [if_pos rfl] at h1
  exact ⟨cs, c, h1, h3, h4, h5⟩

theorem parseCore_argsOk (la1 : Bool) (fl1 : Char) (fmt2 : List Char) (args0 : List CArg)
    {la : Bool} {fl : Char} {wd pr : Int} {il : Bool} {c4 : Char} {fmtE : List Char}
    {argsD : List CArg}
    (h : (match parseNum fmt2 args0 0 with
          | none => none
          | some (width, cW, fmtC, argsC) =>
            match (if cW = '.' then parseNum fmtC argsC 0
              else some ((0 : Int), cW, fmtC, argsC)) with
            | none => none
            | some (precision, c3, fmtD, argsD2) =>
              match decodeLong c3 fmtD with
              | none => none
              | some (is_long, c42, fmtE2) =>
                some (la1, fl1, width, precision, is_long, c42, fmtE2, argsD2))
        = some (la, fl, wd, pr, il, c4, fmtE, argsD))
    (hok : argsOk args0) : argsOk argsD := by
  rcases hpn : parseNum fmt2 args0 0 with _ | ⟨width, cW, fmtC, argsC⟩
  · rw [hpn] at h
    exact Option.noConfusion h
  · rw [hpn] at h
    have hokC := parseNum_argsOk _ _ _ hpn hok
    dsimp only at h
    rcases hpn2 : (if cW = '.' then parseNum fmtC argsC 0
        else some ((0 : Int), cW, fmtC, argsC)) with _ | ⟨precision, c3, fmtD, argsD2⟩
    · rw [hpn2] at h
      exact Option.noConfusion h
    · rw [hpn2] at h
      dsimp only at h
      have hokD : argsOk argsD2 := by
        by_cases hdot : cW = '.'
        · rw [if_pos hdot] at hpn2
          exact parseNum_argsOk _ _ _ hpn2 hokC
        · rw [if_neg hdot] at hpn2
          injection hpn2 with hpn2
          injection hpn2 with e1 hpn2
          injection hpn2 with e2 hpn2
          injection hpn2 with e3 e4
          subst e4
          exact hokC
      rcases hdl : decodeLong c3 fmtD with _ | ⟨is_long, c42, fmtE2⟩
      · rw [hdl] at h
        exact Option.noConfusion h
      · rw [hdl] at h
        dsimp only at h
        injection h with h
        injection h with e1 h
        injection h with e2 h
        injection h with e3 h
        injection h with e4 h
        injection h with e5 h
        injection h with e6 h
        injection h with e7 e8
        subst e8
        exact hokD

theorem parseDirective_argsOk {fmt0 : List Char} {args0 : List CArg}
    {la : Bool} {fl : Char} {wd pr : Int} {il : Bool} {c4 : Char}
    {fmtE : List Char} {argsD : List CArg}
    (h : parseDirective fmt0 args0 = some (la, fl, wd, pr, il, c4, fmtE, argsD))
    (hok : argsOk args0) : argsOk argsD := by
  cases fmt0 with
  | nil => exact Option.noConfusion h
  | cons c1 r1 =>
    unfold parseDirective at h
    dsimp only at h
    by_cases hc1 : c1 = '-'
    · rw [if_pos hc1] at h
      dsimp only at h
      cases r1 with
      | nil => exact Option.noConfusion h
      | cons c2 r2 =>
        dsimp only at h
        by_cases hc2 : c2 = '0'
        · rw [if_pos hc2] at h
          exact parseCore_argsOk _ _ _ _ h hok
        · rw [if_neg hc2] at h
          exact parseCore_argsOk _ _ _ _ h hok
    · rw [if_neg hc1] at h
      dsimp only at h
      by_cases hc2 : c1 = '0'
      · rw [if_pos hc2] at h
        exact parseCore_argsOk _ _ _ _ h hok
      · rw [if_neg hc2] at h
        exact parseCore_argsOk _ _ _ _ h hok

theorem dispatchCase_argsOk {la : Bool} {fl : Char} {wd pr : Int} {il : Bool} {c4 : Char}
    {fmtE : List Char} {argsD : List CArg} {b : Buf}
    {es : List Char} {fmt2 : List Char} {args2 : List CArg} {b2 : Buf} {nf : Option ℚ}
    (h : dispatchCase la fl wd pr il c4 fmtE argsD b = some (es, fmt2, args2, b2, nf))
    (hok : argsOk argsD) : argsOk args2 := by
  unfold dispatchCase at h
  by_cases h1 : c4 = 'c'
  · rw [if_pos h1] at h
    rcases hv : vaInt argsD with _ | ⟨v, argsE⟩
    · rw [hv] at h
      exact Option.noConfusion h
    · rw [hv] at h
      dsimp only at h
      injection h with h
      injection h with e1 h
      injection h with e2 h
      injection h with e3 h
      subst e3
      exact vaInt_argsOk hv hok
  · rw [if_neg h1] at h
    by_cases h2 : c4 = 's'
    · rw [if_pos h2] at h
      rcases hv : vaStr argsD with _ | ⟨so, argsE⟩
      · rw [hv] at h
        exact Option.noConfusion h
      · rw [hv] at h
        dsimp only at h
        injection h with h
        injection h with e1 h
        injection h with e2 h
        injection h with e3 h
        subst e3
        exact vaStr_argsOk hv hok
    · rw [if_neg h2] at h
      by_cases h3 : c4 = 'D' ∨ c4 = 'd' ∨ c4 = 'I' ∨ c4 = 'i'
      · rw [if_pos h3] at h
        have hvv : (if il = true then vaLong argsD else vaInt argsD) = vaInt argsD := by
          cases il <;> rfl
        rw [hvv] at h
        rcases hv : vaInt argsD with _ | ⟨v, argsE⟩
        · rw [hv] at h
          exact Option.noConfusion h
        · rw [hv] at h
          dsimp only at h
          repeat
            first
            | exact Option.noConfusion h
            | (injection h with h
               injection h with e1 h
               injection h with e2 h
               injection h with e3 h
               subst e3
               exact vaInt_argsOk hv hok)
            | split at h
      · rw [if_neg h3] at h
        by_cases h4 : c4 = 'f'
        · rw [if_pos h4] at h
          rcases hv : vaDouble argsD with _ | ⟨fv, argsE⟩
          · rw [hv] at h
            exact Option.noConfusion h
          · rw [hv] at h
            dsimp only at h
            repeat
              first
              | exact Option.noConfusion h
              | (injection h with h
                 injection h with e1 h
                 injection h with e2 h
                 injection h with e3 h
                 subst e3
                 exact vaDouble_argsOk hv hok)
              | split at h
        · rw [if_neg h4] at h
          by_cases h5 : c4 = 'X' ∨ c4 = 'x' ∨ c4 = 'U' ∨ c4 = 'u' ∨ c4 = 'O' ∨ c4 = 'o'
          · rw [if_pos h5] at h
            dsimp only at h
            rcases hv : vaUnsigned argsD with _ | ⟨uv, argsE⟩
            · rw [hv] at h
              exact Option.noConfusion h
            · rw [hv] at h
              dsimp only at h
              repeat
                first
                | exact Option.noConfusion h
                | (injection h with h
                   injection h with e1 h
                   injection h with e2 h
                   injection h with e3 h
                   subst e3
                   exact vaUnsigned_argsOk hv hok)
                | split at h
          · rw [if_neg h5] at h
            dsimp only at h
            injection h with h
            injection h with e1 h
            injection h with e2 h
            injection h with e3 h
            subst e3
            exact hok

theorem doDirective_argsOk {fmt0 : List Char} {args0 : List CArg} {b : Buf}
    {es : List Char} {fmt2 : List Char} {args2 : List CArg} {b2 : Buf} {nf : Option ℚ}
    (h : doDirective fmt0 args0 b = some (es, fmt2, args2, b2, nf))
    (hok : argsOk args0) : argsOk args2 := by
  unfold doDirective at h
  split at h
  · exact Option.noConfusion h
  · rename_i la fl wd pr il c4 fmtE argsD hp
    exact dispatchCase_argsOk h (parseDirective_argsOk hp hok)

theorem bufRead_bwrite0 (b : Buf) (c : Char) : bufRead (bwrite b 0 c) 0 1 = [c] := by
  show [bwrite b 0 c 0] = [c]
  rw [bwrite_self]

theorem bufRead_signed {c b : Buf} {cs : List Char}
    (hrd : bufRead c 1 cs.length = cs) (hfr : ∀ j, j < 1 → c j = bwrite b 0 '-' j) :
    bufRead c 0 (1 + cs.length) = '-' :: cs := by
  rw [bufRead_append c 0 1 cs.length]
  show c 0 :: bufRead c (0 + 1) cs.length = '-' :: cs
  rw [hfr 0 (by omega), bwrite_self]
  exact congrArg (List.cons '-') hrd

theorem normalizeQ_okOfNonneg (q : ℚ) (h : 0 ≤ q) (hr : dblRange q) :
    ∃ m E, normalizeQ q = some (m, E) ∧ 0 ≤ m ∧ m < 10 ∧ E.natAbs < 10 ^ MAX_FILLER := by
  rcases eq_or_lt_of_le h with h0 | h0
  · refine ⟨0, 0, ?_, le_rfl, by norm_num, by norm_num [MAX_FILLER]⟩
    rw [← h0]
    exact normalizeQ_zero
  · obtain ⟨m, E, hn, h1, h2, _⟩ := normalizeQ_pos_spec q h0
    exact ⟨m, E, hn, by linarith, h2, normalizeQ_E_bound q m E hn h hr⟩

theorem dispatchCase_obs (la : Bool) (fl : Char) (wd pr : Int) (il : Bool) (c4 : Char)
    (fmtE : List Char) (argsD : List CArg) (hok : argsOk argsD) (b0 b1 : Buf) :
    dirObs (dispatchCase la fl wd pr il c4 fmtE argsD b0) =
      dirObs (dispatchCase la fl wd pr il c4 fmtE argsD b1) := by
  unfold dispatchCase
  by_cases h1 : c4 = 'c'
  · simp only [if_pos h1]
    rcases hv : vaInt argsD with _ | ⟨v, argsE⟩
    · rfl
    · dsimp only
      rw [bufRead_bwrite0, bufRead_bwrite0]
      simp only [dirObs]
  · simp only [if_neg h1]
    by_cases h2 : c4 = 's'
    · simp only [if_pos h2]
      rcases hv : vaStr argsD with _ | ⟨so, argsE⟩
      · rfl
      · dsimp only
        simp only [dirObs]
    · simp only [if_neg h2]
      by_cases h3 : c4 = 'D' ∨ c4 = 'd' ∨ c4 = 'I' ∨ c4 = 'i'
      · simp only [if_pos h3]
        have hvv : (if il = true then vaLong argsD else vaInt argsD) = vaInt argsD := by
          cases il <;> rfl
        rw [hvv]
        rcases hv : vaInt argsD with _ | ⟨v, argsE⟩
        · rfl
        · dsimp only
          have hb : v.natAbs ≤ 2 ^ 31 := vaInt_natAbs_le hv
          by_cases hv0 : v < 0
          · simp only [if_pos hv0]
            obtain ⟨cs0, c0, hcs0, hlt0, hrd0, hfr0⟩ :=
              ch_ltoa_spec (bwrite b0 0 '-') 1 (neg32 v) 10 (by norm_num)
                (by have h31 := neg32_natAbs_le v; norm_num [MAX_FILLER] at h31 ⊢; omega)
            obtain ⟨cs1, c1, hcs1, hlt1, hrd1, hfr1⟩ :=
              ch_ltoa_spec (bwrite b1 0 '-') 1 (neg32 v) 10 (by norm_num)
                (by have h31 := neg32_natAbs_le v; norm_num [MAX_FILLER] at h31 ⊢; omega)
            rw [hcs0] at hcs1
            injection hcs1 with e
            subst e
            rw [hlt0, hlt1]
            dsimp only
            rw [bufRead_signed hrd0 hfr0, bufRead_signed hrd1 hfr1]
            simp only [dirObs]
          · simp only [if_neg hv0]
            obtain ⟨cs0, c0, hcs0, hlt0, hrd0, hfr0⟩ :=
              ch_ltoa_spec b0 0 v 10 (by norm_num)
                (by norm_num [MAX_FILLER] at hb ⊢; omega)
            obtain ⟨cs1, c1, hcs1, hlt1, hrd1, hfr1⟩ :=
              ch_ltoa_spec b1 0 v 10 (by norm_num)
                (by norm_num [MAX_FILLER] at hb ⊢; omega)
            rw [hcs0] at hcs1
            injection hcs1 with e
            subst e
            rw [hlt0, hlt1]
            dsimp only
            simp only [Nat.zero_add]
            rw [hrd0, hrd1]
            simp only [dirObs]
      · simp only [if_neg h3]
        by_cases h4 : c4 = 'f'
        · simp only [if_pos h4]
          rcases hv : vaDouble argsD with _ | ⟨fv, argsE⟩
          · rfl
          · dsimp only
            have hdr : dblRange fv := vaDouble_dblRange hv hok
            by_cases hf0 : fv < 0
            · simp only [if_pos hf0]
              obtain ⟨m, E, hn, hm0, hm10, hE⟩ :=
                normalizeQ_okOfNonneg (-fv) (by linarith) (dblRange_neg hdr)
              obtain ⟨hnone0, hsome0⟩ :=
                ftoa_spec (bwrite b0 0 '-') 1 (-fv) m E ((pr.emod (2 ^ 32)).toNat)
                  hn hm0 hm10 hE
              obtain ⟨hnone1, hsome1⟩ :=
                ftoa_spec (bwrite b1 0 '-') 1 (-fv) m E ((pr.emod (2 ^ 32)).toNat)
                  hn hm0 hm10 hE
              rcases hfc : ftoaChars m E ((pr.emod (2 ^ 32)).toNat) with _ | cs
              · rw [hnone0 hfc, hnone1 hfc]
              · obtain ⟨c0, hlt0, hrd0, hfr0⟩ := hsome0 cs hfc
                obtain ⟨c1, hlt1, hrd1, hfr1⟩ := hsome1 cs hfc
                rw [hlt0, hlt1]
                dsimp only
                rw [bufRead_signed hrd0 hfr0, bufRead_signed hrd1 hfr1]
                simp only [dirObs]
            · simp only [if_neg hf0]
              obtain ⟨m, E, hn, hm0, hm10, hE⟩ :=
                normalizeQ_okOfNonneg fv (by linarith) hdr
              obtain ⟨hnone0, hsome0⟩ :=
                ftoa_spec b0 0 fv m E ((pr.emod (2 ^ 32)).toNat) hn hm0 hm10 hE
              obtain ⟨hnone1, hsome1⟩ :=
                ftoa_spec b1 0 fv m E ((pr.emod (2 ^ 32)).toNat) hn hm0 hm10 hE
              rcases hfc : ftoaChars m E ((pr.emod (2 ^ 32)).toNat) with _ | cs
              · rw [hnone0 hfc, hnone1 hfc]
              · obtain ⟨c0, hlt0, hrd0, hfr0⟩ := hsome0 cs hfc
                obtain ⟨c1, hlt1, hrd1, hfr1⟩ := hsome1 cs hfc
                rw [hlt0, hlt1]
                dsimp only
                simp only [Nat.zero_add]
                rw [hrd0, hrd1]
                simp only [dirObs]
        · simp only [if_neg h4]
          by_cases h5 : c4 = 'X' ∨ c4 = 'x' ∨ c4 = 'U' ∨ c4 = 'u' ∨ c4 = 'O' ∨ c4 = 'o'
          · simp only [if_pos h5]
            rcases hv : vaUnsigned argsD with _ | ⟨uv, argsE⟩
            · rfl
            · dsimp only
              set radix : Nat := (if c4 = 'X' ∨ c4 = 'x' then 16
                else if c4 = 'U' ∨ c4 = 'u' then 10 else 8) with hrad
              have hr2 : 2 ≤ radix := by
                rw [hrad]
                split
                · norm_num
                · split <;> norm_num
              have h8 : 8 ≤ radix := by
                rw [hrad]
                split
                · norm_num
                · split <;> norm_num
              have hbound : (toSigned32 uv).natAbs < radix ^ MAX_FILLER := by
                have h31 := toSigned32_natAbs_le uv
                have hlt8 : (2 : Nat) ^ 31 < 8 ^ MAX_FILLER := by norm_num [MAX_FILLER]
                have hmono : (8 : Nat) ^ MAX_FILLER ≤ radix ^ MAX_FILLER :=
                  Nat.pow_le_pow_left h8 _
                omega
              obtain ⟨cs0, c0, hcs0, hlt0, hrd0, hfr0⟩ :=
                ch_ltoa_spec b0 0 (toSigned32 uv) radix hr2 hbound
              obtain ⟨cs1, c1, hcs1, hlt1, hrd1, hfr1⟩ :=
                ch_ltoa_spec b1 0 (toSigned32 uv) radix hr2 hbound
              rw [hcs0] at hcs1
              injection hcs1 with e
              subst e
              rw [hlt0, hlt1]
              dsimp only
              simp only [Nat.zero_add]
              rw [hrd0, hrd1]
              simp only [dirObs]
          · simp only [if_neg h5]
            rw [bufRead_bwrite0, bufRead_bwrite0]
            simp only [dirObs]

theorem doDirective_obs (fmt0 : List Char) (args0 : List CArg) (b0 b1 : Buf)
    (hok : argsOk args0) :
    dirObs (doDirective fmt0 args0 b0) = dirObs (doDirective fmt0 args0 b1) := by
  unfold doDirective
  cases hp : parseDirective fmt0 args0 with
  | none => rfl
  | some val =>
    obtain ⟨la, fl, wd, pr, il, c4, fmtE, argsD⟩ := val
    exact dispatchCase_obs la fl wd pr il c4 fmtE argsD
      (parseDirective_argsOk hp hok) b0 b1

theorem obs_consRes (es : List Char) (r : Option PRes) :
    obs (consRes es r) = (obs r).map (Option.map (fun o => (es ++ o.1, o.2))) := by
  cases r with
  | none => rfl
  | some p => cases p <;> rfl

theorem chvLoop_obs : ∀ (fuel : Nat) (fmt : List Char) (args : List CArg) (n : Int)
    (b0 b1 : Buf) (f0 f1 : ℚ), argsOk args →
    obs (chvLoop fuel fmt args n b0 f0) = obs (chvLoop fuel fmt args n b1 f1) := by
  intro fuel
  induction fuel with
  | zero => intro _ _ _ _ _ _ _ _; rfl
  | succ fuel ih =>
    intro fmt args n b0 b1 f0 f1 hok
    cases fmt with
    | nil => rfl
    | cons c fmt1 =>
      by_cases hN : c = NUL
      · show obs (if c = NUL then some (PRes.ok [] n f0) else _) =
          obs (if c = NUL then some (PRes.ok [] n f1) else _)
        rw [if_pos hN, if_pos hN]
        rfl
      · show obs (if c = NUL then some (PRes.ok [] n f0) else _) =
          obs (if c = NUL then some (PRes.ok [] n f1) else _)
        rw [if_neg hN, if_neg hN]
        by_cases hP : c = '%'
        · rw [if_neg (not_not_intro hP), if_neg (not_not_intro hP)]
          have hdo := doDirective_obs fmt1 args b0 b1 hok
          cases h0 : doDirective fmt1 args b0 with
          | none =>
            cases h1 : doDirective fmt1 args b1 with
            | none => rfl
            | some val1 =>
              rw [h0, h1] at hdo
              obtain ⟨es1, fmt21, args21, bB, nf1⟩ := val1
              exact Option.noConfusion hdo
          | some val0 =>
            obtain ⟨es0, fmt20, args20, bA, nf0⟩ := val0
            cases h1 : doDirective fmt1 args b1 with
            | none =>
              rw [h0, h1] at hdo
              exact Option.noConfusion hdo
            | some val1 =>
              obtain ⟨es1, fmt21, args21, bB, nf1⟩ := val1
              rw [h0, h1] at hdo
              simp only [dirObs] at hdo
              injection hdo with hdo
              injection hdo with e1 hdo
              injection hdo with e2 hdo
              injection hdo with e3 e4
              subst e1
              subst e2
              subst e3
              subst e4
              show obs (consRes es0
                  (chvLoop fuel fmt20 args20 (n + (es0.length : Int)) bA (nf0.getD f0))) =
                obs (consRes es0
                  (chvLoop fuel fmt20 args20 (n + (es0.length : Int)) bB (nf0.getD f1)))
              rw [obs_consRes, obs_consRes,
                ih fmt20 args20 (n + (es0.length : Int)) bA bB (nf0.getD f0) (nf0.getD f1)
                  (doDirective_argsOk h0 hok)]
        · rw [if_pos hP, if_pos hP]
          rw [obs_consRes, obs_consRes, ih fmt1 args (n + 1) b0 b1 f0 f1 hok]

/-- C9: the engine's observable behaviour — emitted bytes and returned
count — depends only on the format string and argument list, not on the
entry contents of the stack working buffer nor on the value an earlier call
left in the static `f` written by the float case: two calls with identical
format and arguments give identical results, regardless of earlier calls. -/
theorem c9_no_shared_mutable_state (f0 f1 : ℚ) (t0 t1 : Buf) (fmt : List Char)
    (args : List CArg) (hok : argsOk args) :
    obs (chvprintfS f0 t0 fmt args) = obs (chvprintfS f1 t1 fmt args) :=
  chvLoop_obs (fmt.length + 2) (fmt ++ [NUL]) args 0 t0 t1 f0 f1 hok

theorem c9_no_shared_mutable_state_witness :
    obs (chvprintfS 0 (fun _ => NUL) ['%', 'f'] [CArg.dbl (1 / 2)]) =
      obs (chvprintfS 37 (fun _ => 'Z') ['%', 'f'] [CArg.dbl (1 / 2)]) :=
  c9_no_shared_mutable_state 0 37 (fun _ => NUL) (fun _ => 'Z') ['%', 'f']
    [CArg.dbl (1 / 2)] (by
      intro a ha q hq
      rw [List.mem_singleton] at ha
      subst ha
      injection hq with h
      subst h
      constructor
      · rw [abs_of_pos (by norm_num)]
        norm_num
      · intro _
        rw [abs_of_pos (by norm_num)]
        norm_num)

/-! ## Claim theorems -/

theorem getD_take_of_lt (l : List Char) (n k : Nat) (d : Char) (h : k < n) :
    (l.take n).getD k d = l.getD k d := by
  induction l generalizing n k with
  | nil => simp
  | cons c cs ih =>
    cases n with
    | zero => omega
    | succ n =>
      cases k with
      | zero => simp
      | succ k => simpa using ih n k (by omega)

/-- C1: for a destination of capacity `size ≥ 1`, when the untruncated
output length `L` is at least `size`, the bounded form stores exactly the
first `size - 1` emitted data bytes, a NUL terminator immediately after
them, leaves every byte at index `size` and beyond untouched, and returns
the untruncated length `L`, so truncation is detected by comparing the
return value to the capacity. -/
theorem c1_truncating_bounded_form
    (f0 : ℚ) (tmp0 str : Buf) (size : Nat) (fmt : List Char) (args : List CArg)
    (out : List Char) (L : Int) (fF : ℚ)
    (hsize : 1 ≤ size)
    (hrun : chvprintfS f0 tmp0 fmt args = some (.ok out L fF))
    (htrunc : (size : Int) ≤ L) :
    ∃ str', chvsnprintfS f0 tmp0 str size fmt args = some (str', L) ∧
      (∀ k, k < size - 1 → str' k = out.getD k NUL) ∧
      str' (size - 1) = NUL ∧
      (∀ k, size ≤ k → str' k = str k) := by
  have hL : L = out.length := by
    have h := chvLoop_count _ _ _ _ _ _ hrun
    simpa using h
  have hlen : size ≤ out.length := by
    rw [hL] at htrunc
    exact_mod_cast htrunc
  have hwn : (if 0 < size then size - 1 else 0) = size - 1 := if_pos (by omega)
  have heos : min out.length (size - 1) = size - 1 := Nat.min_eq_right (by omega)
  simp only [chvsnprintfS, hrun, hwn, heos, if_pos (show size - 1 < size by omega)]
  refine ⟨_, rfl, ?_, ?_, ?_⟩
  · intro k hk
    rw [bwrite_other _ _ _ (by omega), writeList_apply,
      if_pos ⟨Nat.zero_le _, by rw [Nat.sub_zero, List.length_take]; omega⟩,
      Nat.sub_zero, getD_take_of_lt _ _ _ _ hk]
  · exact bwrite_self _ _ _
  · intro k hk
    rw [bwrite_other _ _ _ (by omega), writeList_apply,
      if_neg (by rw [not_and, Nat.sub_zero, List.length_take]; intro _; omega)]

theorem c1_truncating_bounded_form_witness :
    (chvprintfS 0 (fun _ => NUL) "%d".toList [CArg.word 12345] =
      some (.ok "12345".toList 5 0)) ∧
    (∃ str', chvsnprintfS 0 (fun _ => NUL) (fun _ => 'A') 4 "%d".toList [CArg.word 12345] =
        some (str', 5) ∧
      (∀ k, k < 4 - 1 → str' k = "12345".toList.getD k NUL) ∧
      str' (4 - 1) = NUL ∧
      (∀ k, 4 ≤ k → str' k = (fun _ => 'A') k)) :=
  ⟨by decide, c1_truncating_bounded_form 0 (fun _ => NUL) (fun _ => 'A') 4 "%d".toList
    [CArg.word 12345] "12345".toList 5 0 (by decide) (by decide) (by decide)⟩

/-- C6: with capacity 0 the bounded form writes no data byte and no
terminator — the destination is returned entirely unchanged — and the
return value is still the logical untruncated length. -/
theorem c6_capacity_zero_writes_nothing
    (f0 : ℚ) (tmp0 str : Buf) (fmt : List Char) (args : List CArg)
    (out : List Char) (L : Int) (fF : ℚ)
    (hrun : chvprintfS f0 tmp0 fmt args = some (.ok out L fF)) :
    chvsnprintfS f0 tmp0 str 0 fmt args = some (str, L) := by
  simp [chvsnprintfS, hrun, writeList]

theorem c6_capacity_zero_writes_nothing_witness :
    chvsnprintfS 0 (fun _ => NUL) (fun _ => 'A') 0 "%d".toList [CArg.word 7] =
      some ((fun _ => 'A'), 1) :=
  c6_capacity_zero_writes_nothing 0 (fun _ => NUL) (fun _ => 'A') "%d".toList
    [CArg.word 7] "7".toList 1 0 (by decide)

/-- C3 (counterexample to the claimed output): `"%-05d"` applied to `-7`
emits `"-7000"`, not the claimed `"-7   "` — with left alignment the `0`
flag still selects the zero filler for the right-side fill. -/
theorem c3_left_align_zero_counterexample :
    chvprintf "%-05d".toList [CArg.word (toWord (-7))] = some (.ok "-7000".toList 5 0) ∧
    "-7000".toList ≠ "-7   ".toList := by decide

/-- C3 (amended): with left alignment the rendered text is emitted first
and the right-side fill re-uses whatever filler the flags selected — the
`0` flag is not ignored, so `"%-05d"` with `-7` produces `"-7000"` (zero
fill on the right), length 5. -/
theorem c3_left_align_fill_uses_selected_filler :
    (∀ (s : List Char) (i width0 : Int) (filler : Char), 0 ≤ width0 - i →
      emitField s i width0 true filler =
        s.take i.toNat ++ List.replicate (width0 - i).toNat filler) ∧
    chvprintf "%-05d".toList [CArg.word (toWord (-7))] = some (.ok "-7000".toList 5 0) := by
  refine ⟨?_, by decide⟩
  intro s i width0 filler hw
  have h1 : ¬(width0 - i < 0) := not_lt.2 hw
  simp [emitField, h1]

theorem c3_left_align_fill_uses_selected_filler_witness :
    emitField ['-', '7'] 2 5 true '0' = ['-', '7', '0', '0', '0'] :=
  Eq.trans (c3_left_align_fill_uses_selected_filler.1 ['-', '7'] 2 5 '0' (by norm_num))
    (by decide)

/-- C7: for a right-aligned zero-filled field whose rendered text starts
with `'-'`, the sign is emitted first, then the zero padding, then the
remaining digits; concretely `"%08X"` of 255 gives `"000000FF"` and
`"%04d"` of `-7` gives `"-007"`. -/
theorem c7_zero_fill_keeps_sign_leftmost :
    (∀ (s : List Char) (i width0 : Int),
      s.headD NUL = '-' → 0 < width0 - i →
      emitField s i width0 false '0' =
        '-' :: (List.replicate (width0 - i).toNat '0' ++ (s.drop 1).take (i - 1).toNat)) ∧
    chvprintf "%08X".toList [CArg.word 255] = some (.ok "000000FF".toList 8 0) ∧
    chvprintf "%04d".toList [CArg.word (toWord (-7))] = some (.ok "-007".toList 4 0) := by
  refine ⟨?_, by decide, by decide⟩
  intro s i width0 hh hw
  have h1 : ¬(width0 - i < 0) := by omega
  have h2 : -(width0 - i) < 0 := by omega
  have h3 : i < width0 := by omega
  have hh' : s.head?.getD NUL = '-' := by simpa using hh
  simp [emitField, h1, h2, h3, hh']

theorem c7_zero_fill_keeps_sign_leftmost_witness :
    emitField ['-', '7'] 2 4 false '0' = ['-', '0', '0', '7'] :=
  Eq.trans (c7_zero_fill_keeps_sign_leftmost.1 ['-', '7'] 2 4 rfl (by norm_num))
    (by decide)

/-- C8: an `l`/`L` at the conversion position selects the wide type and
re-reads the conversion kind from the next character; otherwise the
conversion is wide exactly when the conversion character is upper-case.
Concretely `%lx`, `%X` of 255 both give `"FF"`, and `%d`, `%D` of `-5`
both give `"-5"`. -/
theorem c8_long_modifier_and_uppercase_shorthand :
    (∀ (c : Char) (f : Char) (rest : List Char),
      (c = 'l' ∨ c = 'L') → f ≠ NUL →
      decodeLong c (f :: rest) = some (true, f, rest)) ∧
    (∀ (c : Char) (fmt : List Char), ¬(c = 'l' ∨ c = 'L') →
      ∀ b c' fmt', decodeLong c fmt = some (b, c', fmt') →
        ((b = true ↔ 'A' ≤ c ∧ c ≤ 'Z') ∧ c' = c ∧ fmt' = fmt)) ∧
    chvprintf "%lx".toList [CArg.word 255] = some (.ok "FF".toList 2 0) ∧
    chvprintf "%X".toList [CArg.word 255] = some (.ok "FF".toList 2 0) ∧
    chvprintf "%d".toList [CArg.word (toWord (-5))] = some (.ok "-5".toList 2 0) ∧
    chvprintf "%D".toList [CArg.word (toWord (-5))] = some (.ok "-5".toList 2 0) := by
  refine ⟨?_, ?_, by decide, by decide, by decide, by decide⟩
  · intro c f rest hc hf
    simp [decodeLong, hc, hf]
  · intro c fmt hc b c' fmt' h
    simp only [decodeLong, if_neg hc] at h
    injection h with h
    injection h with h1 h2
    injection h2 with h2 h3
    refine ⟨?_, h2.symm, h3.symm⟩
    rw [← h1]
    exact decide_eq_true_iff

theorem c8_long_modifier_and_uppercase_shorthand_witness :
    decodeLong 'l' ['x'] = some (true, 'x', []) ∧
    ((true = true ↔ 'A' ≤ 'X' ∧ 'X' ≤ 'Z') ∧ 'X' = 'X' ∧ ([] : List Char) = []) :=
  ⟨c8_long_modifier_and_uppercase_shorthand.1 'l' 'x' [] (Or.inl rfl) (by decide),
   c8_long_modifier_and_uppercase_shorthand.2.1 'X' [] (by decide) true 'X' []
     (by decide)⟩

/-- C10: a format string that ends in the middle of a directive is NOT
handled safely: for `"abc%"` (and `"abc%5"`) the width-parsing loop
consumes the terminating NUL as if it were a flag/width character, the
directive path emits a byte for it, and the cursor then reads past the
terminator — undefined behaviour, contradicting the claim that the engine
never advances past the NUL. -/
theorem c10_truncated_directive_reads_past_nul :
    chvprintf "abc%".toList [] = some .ub ∧
    chvprintf "abc%5".toList [] = some .ub := by decide

/-- C2 (refutation): rendering `0.5` — as `chvprintf` does for `"%f"` with
a negative argument `-0.5`, sign at index 0 and `ftoa` starting at index
1 — makes the scratch digit loop write the byte `'1'` at index
`2*MAX_FILLER + 1 = 23`, one past the last valid index of the
`tmpbuf[2*MAX_FILLER + 1]` working buffer (indices 0..22): the renderer
does write past the declared capacity. -/
theorem c2_ftoa_writes_past_capacity :
    (ftoa (fun _ => NUL) 1 (1 / 2) 0).map (fun bp => (bp.2, bp.1 (2 * MAX_FILLER + 1))) =
      some (14, '1') ∧
    (fun _ => NUL : Buf) (2 * MAX_FILLER + 1) ≠ '1' := by
  constructor
  · norm_num [ftoa, ftoaCore, ftoaSci, normalizeQ, scaleDown_of_lt, scaleUp_of_lt,
      scaleUp_of_le, clampPrec, FLOAT_PRECISION, MAX_FILLER, ctruncQ, wrapSub32, pow10,
      long_to_string_with_divisor, ltsDigits_last, ltsDigits_cont, ltsCopy,
      ftoaExp, bwrite, NUL, digitChar, Int.tdiv_eq_ediv, Int.tmod_eq_emod]
    decide
  · decide

/-- C4 (refutation at clamped precision 1): `ftoa` of `12.0` with
requested precision 1 indexes `pow10[(unsigned)(precision - 2)]` =
`pow10[4294967295]`, an out-of-bounds read (modelled as `none`), instead
of rendering the claimed scientific form; for precisions ≥ 2 the claimed
shape does appear, e.g. `1234.5` at precision 3 renders `"1.23E+3"`. -/
theorem c4_scientific_notation_precision_one_oob :
    ftoa (fun _ => NUL) 0 12 1 = none ∧
    (ftoa (fun _ => NUL) 0 (2469 / 2 : ℚ) 3).map (fun bp => (bufRead bp.1 0 bp.2, bp.2)) =
      some ("1.23E+3".toList, 7) := by
  constructor
  · norm_num [ftoa, ftoaCore, ftoaSci, normalizeQ, scaleDown_of_lt, scaleDown_of_le,
      scaleUp_of_lt, scaleUp_of_le, clampPrec, FLOAT_PRECISION, MAX_FILLER, ctruncQ,
      wrapSub32, pow10, long_to_string_with_divisor, ltsDigits_last, ltsDigits_cont,
      ltsCopy, ftoaExp, bwrite, NUL, digitChar, Int.tdiv_eq_ediv, Int.tmod_eq_emod]
  · norm_num [ftoa, ftoaCore, ftoaSci, normalizeQ, scaleDown_of_lt, scaleDown_of_le,
      scaleUp_of_lt, scaleUp_of_le, clampPrec, FLOAT_PRECISION, MAX_FILLER, ctruncQ,
      wrapSub32, pow10, long_to_string_with_divisor, ltsDigits_last, ltsDigits_cont,
      ltsCopy, ftoaExp, bwrite, bufRead, NUL, digitChar, Int.tdiv_eq_ediv,
      Int.tmod_eq_emod]
    decide

/-! ## Digit values: the truncation property (C5 support) -/

theorem digitsVal_foldl : ∀ (cs : List Char) (a : Int),
    cs.foldl (fun x c => x * 10 + ((c.toNat : Int) - 48)) a =
      a * 10 ^ cs.length + digitsVal cs := by
  intro cs
  induction cs with
  | nil =>
    intro a
    simp [digitsVal]
  | cons c cs ih =>
    intro a
    show cs.foldl _ (a * 10 + ((c.toNat : Int) - 48)) = _
    rw [ih]
    have h2 : digitsVal (c :: cs) =
        ((c.toNat : Int) - 48) * 10 ^ cs.length + digitsVal cs := by
      show cs.foldl _ (0 * 10 + ((c.toNat : Int) - 48)) = _
      rw [ih]
      ring
    rw [h2]
    show _ = a * 10 ^ (cs.length + 1) + _
    ring

theorem digitsVal_append (xs ys : List Char) :
    digitsVal (xs ++ ys) = digitsVal xs * 10 ^ ys.length + digitsVal ys := by
  show (xs ++ ys).foldl _ 0 = _
  rw [List.foldl_append]
  exact digitsVal_foldl ys _

theorem digitsVal_cons (c : Char) (cs : List Char) :
    digitsVal (c :: cs) = ((c.toNat : Int) - 48) * 10 ^ cs.length + digitsVal cs := by
  show cs.foldl _ (0 * 10 + ((c.toNat : Int) - 48)) = _
  rw [digitsVal_foldl]
  ring

theorem plainDigit_facts (d : Int) (h0 : 0 ≤ d) (h9 : d ≤ 9) :
    Char.ofNat ((48 + d).emod 256).toNat ≠ '.' ∧
    Char.ofNat ((48 + d).emod 256).toNat ≠ 'E' ∧
    ((Char.ofNat ((48 + d).emod 256).toNat).toNat : Int) - 48 = d := by
  interval_cases d <;> exact ⟨by decide, by decide, by decide⟩

theorem digitChar_facts (d : Int) (h0 : 0 ≤ d) (h9 : d ≤ 9) :
    digitChar d ≠ '.' ∧ digitChar d ≠ 'E' ∧ ((digitChar d).toNat : Int) - 48 = d := by
  interval_cases d <;> exact ⟨by decide, by decide, by decide⟩

theorem plainChars_spec : ∀ (P : Nat) (m : ℚ) (E : Int), 0 ≤ m → m < 10 →
    ((plainChars m E P).filter (fun c => c ≠ '.')).length = P ∧
    (∀ c ∈ plainChars m E P, c ≠ 'E') ∧
    digitsVal ((plainChars m E P).filter (fun c => c ≠ '.')) =
      (if P = 0 then 0 else ⌊m * (10 : ℚ) ^ ((P : Int) - 1)⌋) := by
  intro P
  induction P with
  | zero =>
    intro m E h0 h10
    refine ⟨by simp [plainChars], by simp [plainChars], by simp [digitsVal, plainChars]⟩
  | succ P ih =>
    intro m E h0 h10
    have hfloor : ctruncQ m = ⌊m⌋ := by rw [ctruncQ, if_neg (not_lt.2 h0)]
    have hd0 : (0 : Int) ≤ ctruncQ m := by
      rw [hfloor]
      exact Int.floor_nonneg.2 h0
    have hd9 : ctruncQ m ≤ 9 := by
      rw [hfloor]
      have hlt : ⌊m⌋ < 10 := Int.floor_lt.2 (by exact_mod_cast h10)
      omega
    obtain ⟨hne, hnE, hval⟩ := plainDigit_facts (ctruncQ m) hd0 hd9
    have hfl_le : ((ctruncQ m : ℚ)) ≤ m := by
      rw [hfloor]
      exact_mod_cast Int.floor_le m
    have hfl_gt : m < (ctruncQ m : ℚ) + 1 := by
      rw [hfloor]
      exact_mod_cast Int.lt_floor_add_one m
    have hm'0 : 0 ≤ (m - (ctruncQ m : ℚ)) * 10 := by nlinarith
    have hm'10 : (m - (ctruncQ m : ℚ)) * 10 < 10 := by nlinarith
    obtain ⟨ihlen, ihE, ihval⟩ := ih ((m - (ctruncQ m : ℚ)) * 10) (E - 1) hm'0 hm'10
    have hsplit : (plainChars m E (P + 1)).filter (fun c => c ≠ '.') =
        Char.ofNat ((48 + ctruncQ m).emod 256).toNat ::
          (plainChars ((m - (ctruncQ m : ℚ)) * 10) (E - 1) P).filter (fun c => c ≠ '.') := by
      simp only [plainChars]
      by_cases hdot : E = 0 ∧ 0 < P
      · rw [if_pos hdot]
        simp [List.filter_cons, List.filter_append, hne]
      · rw [if_neg hdot]
        simp [List.filter_cons, hne]
    refine ⟨?_, ?_, ?_⟩
    · rw [hsplit, List.length_cons, ihlen]
    · intro c hc
      by_cases hdot : E = 0 ∧ 0 < P
      · simp only [plainChars, if_pos hdot, List.mem_cons, List.mem_append,
          List.mem_singleton] at hc
        rcases hc with rfl | hcc | hc
        · exact hnE
        · rcases hcc with rfl | hnil
          · decide
          · exact absurd hnil (List.not_mem_nil c)
        · exact ihE c hc
      · simp only [plainChars, if_neg hdot, List.nil_append, List.mem_cons] at hc
        rcases hc with rfl | hc
        · exact hnE
        · exact ihE c hc
    · rw [hsplit, digitsVal_cons, ihlen, hval, ihval]
      rw [if_neg (Nat.succ_ne_zero P)]
      by_cases hP : P = 0
      · subst hP
        rw [if_pos rfl]
        have h1 : (((0 : Nat) + 1 : Nat) : Int) - 1 = 0 := by norm_num
        rw [h1, zpow_zero, mul_one, hfloor]
        simp
      · rw [if_neg hP]
        have hA : ((m - (ctruncQ m : ℚ)) * 10) * (10 : ℚ) ^ ((P : Int) - 1) =
            (m - (ctruncQ m : ℚ)) * (10 : ℚ) ^ (P : Int) := by
          have h10P : (10 : ℚ) ^ (P : Int) = (10 : ℚ) ^ ((P : Int) - 1) * 10 := by
            rw [← zpow_add_one₀ (by norm_num : (10 : ℚ) ≠ 0)]
            norm_num
          rw [h10P]
          ring
        rw [hA]
        have hE1 : (((P + 1 : Nat)) : Int) - 1 = (P : Int) := by push_cast; ring
        rw [hE1]
        have hsum : m * (10 : ℚ) ^ (P : Int) =
            (m - (ctruncQ m : ℚ)) * (10 : ℚ) ^ (P : Int) +
              ((ctruncQ m * 10 ^ P : Int) : ℚ) := by
          push_cast [zpow_natCast]
          ring
        rw [hsum, Int.floor_add_int]
        ring

theorem ltsChars_digitsVal : ∀ (fuel : Nat) (l ll : Int) (cs : List Char),
    ltsChars l ll 10 fuel = some cs → 0 ≤ l → l < 10 ^ cs.length →
    digitsVal cs = l ∧ ∀ c ∈ cs, c ≠ '.' ∧ c ≠ 'E' := by
  intro fuel
  induction fuel with
  | zero =>
    intro l ll cs h
    exact Option.noConfusion h
  | succ fuel ih =>
    intro l ll cs h h0 hlt
    simp only [ltsChars, Nat.cast_ofNat] at h
    have hm0 : (0 : Int) ≤ l.tmod 10 := by
      rw [Int.tmod_eq_emod h0 (by norm_num)]
      exact Int.emod_nonneg l (by norm_num)
    have hm9 : l.tmod 10 ≤ 9 := by
      rw [Int.tmod_eq_emod h0 (by norm_num)]
      have := Int.emod_lt_of_pos l (show (0 : Int) < 10 by norm_num)
      omega
    obtain ⟨hdne, hdnE, hdval⟩ := digitChar_facts (l.tmod 10) hm0 hm9
    by_cases hz : ll.tdiv 10 = 0
    · rw [if_pos hz] at h
      injection h with h
      subst h
      have h1 : l < 10 := by simpa using hlt
      have hm : l.tmod 10 = l := by
        rw [Int.tmod_eq_emod h0 (by norm_num)]
        exact Int.emod_eq_of_lt h0 h1
      refine ⟨?_, ?_⟩
      · rw [digitsVal_cons]
        simp only [List.length_nil, pow_zero, mul_one]
        rw [hdval, hm]
        simp [digitsVal]
      · intro c hc
        rw [List.mem_singleton] at hc
        subst hc
        exact ⟨hdne, hdnE⟩
    · rw [if_neg hz] at h
      rcases hm : ltsChars (l.tdiv 10) (ll.tdiv 10) 10 fuel with _ | cs'
      · rw [hm] at h
        exact Option.noConfusion h
      · rw [hm] at h
        injection h with h
        subst h
        have hlen : (cs' ++ [digitChar (l.tmod 10)]).length = cs'.length + 1 := by simp
        have htd : l.tdiv 10 = l / 10 := Int.tdiv_eq_ediv h0 (by norm_num)
        have h0' : 0 ≤ l.tdiv 10 := by
          rw [htd]
          exact Int.ediv_nonneg h0 (by norm_num)
        have hlt' : l.tdiv 10 < 10 ^ cs'.length := by
          rw [htd]
          rw [hlen] at hlt
          rw [Int.ediv_lt_iff_lt_mul (by norm_num)]
          calc l < 10 ^ (cs'.length + 1) := hlt
          _ = 10 ^ cs'.length * 10 := by ring
        obtain ⟨ihval, ihmem⟩ := ih (l.tdiv 10) (ll.tdiv 10) cs' hm h0' hlt'
        refine ⟨?_, ?_⟩
        · rw [digitsVal_append, ihval]
          have hdv1 : digitsVal [digitChar (l.tmod 10)] = l.tmod 10 := by
            rw [digitsVal_cons]
            simp only [List.length_nil, pow_zero, mul_one]
            rw [hdval]
            simp [digitsVal]
          rw [hdv1]
          simp only [List.length_singleton, pow_one]
          have he := Int.ediv_add_emod l 10
          rw [htd, Int.tmod_eq_emod h0 (by norm_num)]
          omega
        · intro c hc
          rw [List.mem_append] at hc
          rcases hc with hc | hc
          · exact ihmem c hc
          · rw [List.mem_singleton] at hc
            subst hc
            exact ⟨hdne, hdnE⟩

theorem ltsChars_pow_len : ∀ (k fuel : Nat) (l : Int) (cs : List Char),
    ltsChars l (10 ^ k : Int) 10 fuel = some cs → cs.length = k + 1 := by
  intro k
  induction k with
  | zero =>
    intro fuel l cs h
    cases fuel with
    | zero => exact Option.noConfusion h
    | succ fuel =>
      simp only [ltsChars, pow_zero, Nat.cast_ofNat] at h
      rw [if_pos (by decide : (1 : Int).tdiv 10 = 0)] at h
      injection h with h
      rw [← h]
      rfl
  | succ k ih =>
    intro fuel l cs h
    cases fuel with
    | zero => exact Option.noConfusion h
    | succ fuel =>
      simp only [ltsChars, Nat.cast_ofNat] at h
      have htd : ((10 : Int) ^ (k + 1)).tdiv 10 = 10 ^ k := by
        rw [pow_succ]
        exact Int.mul_tdiv_cancel _ (by norm_num)
      rw [htd, if_neg (by positivity : ¬(10 : Int) ^ k = 0)] at h
      rcases hm : ltsChars (l.tdiv 10) (10 ^ k) 10 fuel with _ | cs'
      · rw [hm] at h
        exact Option.noConfusion h
      · rw [hm] at h
        injection h with h
        rw [← h]
        simp [ih fuel _ _ hm]

theorem pow10_get_eq (i : Nat) (pw : Int) (h : pow10.get? i = some pw) :
    i ≤ 8 ∧ pw = 10 ^ (i + 1) := by
  have hi : i < pow10.length := by
    by_contra hlt
    rw [List.get?_eq_none.2 (by omega)] at h
    exact Option.noConfusion h
  have hi9 : i < 9 := by simpa [pow10] using hi
  interval_cases i <;> (simp [pow10] at h; omega)

theorem takeWhile_append_all {p : Char → Bool} :
    ∀ (xs ys : List Char), (∀ c ∈ xs, p c = true) →
      (xs ++ ys).takeWhile p = xs ++ ys.takeWhile p := by
  intro xs ys h
  induction xs with
  | nil => simp
  | cons c cstl ih =>
    have hc : p c = true := h c (List.mem_cons_self c cstl)
    simp [List.takeWhile_cons, hc,
      ih (fun x hx => h x (List.mem_cons_of_mem c hx))]

theorem expChars_head (E : Int) (csE : List Char) (h : expChars E = some csE) :
    ∃ rest, csE = 'E' :: rest := by
  rw [expChars] at h
  by_cases hEs : 0 ≤ E
  · rw [if_pos hEs] at h
    rcases hl : ltsChars E E 10 (E.natAbs + 1) with _ | x
    · rw [hl] at h
      exact Option.noConfusion h
    · rw [hl] at h
      injection h with h
      exact ⟨_, h.symm⟩
  · rw [if_neg hEs] at h
    rcases hl : ltsChars (-E) (-E) 10 ((-E).natAbs + 1) with _ | x
    · rw [hl] at h
      exact Option.noConfusion h
    · rw [hl] at h
      injection h with h
      exact ⟨_, h.symm⟩

theorem sciPrec_facts (P : Nat) (h1 : 1 ≤ P) (h9 : P ≤ 9) (pw : Int)
    (hpw : pow10.get? (wrapSub32 P 2) = some pw) :
    2 ≤ P ∧ pw = 10 ^ (P - 1) := by
  have h2 : 2 ≤ P := by
    by_contra hc
    have hP1 : P = 1 := by omega
    subst hP1
    rw [show wrapSub32 1 2 = 4294967295 from by norm_num [wrapSub32],
      List.get?_eq_none.2 (by norm_num [pow10])] at hpw
    exact Option.noConfusion hpw
  have hw : wrapSub32 P 2 = P - 2 := by
    unfold wrapSub32
    interval_cases P <;> norm_num
  rw [hw] at hpw
  obtain ⟨_, hpw2⟩ := pow10_get_eq _ _ hpw
  refine ⟨h2, ?_⟩
  rw [hpw2, show P - 2 + 1 = P - 1 from by omega]

theorem sigChars_truncation (q m : ℚ) (E : Int) (precision : Nat) (cs : List Char)
    (h0 : 0 ≤ q) (hn : normalizeQ q = some (m, E))
    (hfc : ftoaChars m E precision = some cs) :
    digitsVal (sigChars cs) = ⌊q * (10 : ℚ) ^ ((clampPrec precision : Int) - 1 - E)⌋ := by
  obtain ⟨hm0, hm10⟩ := normalizeQ_nonneg q m E hn h0
  have h10ne : (10 : ℚ) ≠ 0 := by norm_num
  have hqm : m * (10 : ℚ) ^ E = q := by
    rcases eq_or_lt_of_le h0 with h00 | h00
    · rw [← h00, normalizeQ_zero] at hn
      injection hn with hn
      injection hn with hA hB
      rw [← hA, ← hB]
      rw [zpow_zero, mul_one, ← h00]
    · obtain ⟨m', E', hs, _, _, i3⟩ := normalizeQ_pos_spec q h00
      rw [hs] at hn
      injection hn with hn
      injection hn with hA hB
      rw [← hA, ← hB]
      exact i3
  obtain ⟨hP1, hP9⟩ := clampPrec_bounds precision
  have hzsplit : ∀ X : Int, (10 : ℚ) ^ E * (10 : ℚ) ^ (X - E) = (10 : ℚ) ^ X := by
    intro X
    rw [← zpow_add₀ h10ne, show E + (X - E) = X from by ring]
  rw [ftoaChars] at hfc
  by_cases hplain : E < ((clampPrec precision : Nat) : Int) ∧ 0 ≤ E
  · rw [if_pos hplain] at hfc
    injection hfc with hfc
    subst hfc
    obtain ⟨hlen, hnE, hval⟩ := plainChars_spec (clampPrec precision) m E hm0 hm10
    have htw : (plainChars m E (clampPrec precision)).takeWhile (fun c => c ≠ 'E') =
        plainChars m E (clampPrec precision) := by
      have h2 := takeWhile_append_all (plainChars m E (clampPrec precision)) []
        (fun c hc => decide_eq_true (hnE c hc))
      simpa using h2
    show digitsVal (((plainChars m E (clampPrec precision)).takeWhile
        (fun c => c ≠ 'E')).filter (fun c => c ≠ '.')) = _
    rw [htw, hval, if_neg (by omega : ¬ clampPrec precision = 0)]
    rw [← hqm, mul_assoc, hzsplit]
  · rw [if_neg hplain] at hfc
    rcases h1 : ltsChars (ctruncQ m) (ctruncQ m) 10 ((ctruncQ m).natAbs + 1) with _ | cs1
    · rw [h1] at hfc
      exact Option.noConfusion hfc
    · rw [h1] at hfc
      dsimp only at hfc
      rw [ftoaCharsSci, if_pos hP1] at hfc
      rcases hpw : pow10.get? (wrapSub32 (clampPrec precision) 2) with _ | pw
      · rw [hpw] at hfc
        exact Option.noConfusion hfc
      · rw [hpw] at hfc
        dsimp only at hfc
        obtain ⟨hP2, hpweq⟩ := sciPrec_facts (clampPrec precision) hP1 hP9 pw hpw
        have hpw10 : pw / 10 = 10 ^ (clampPrec precision - 2) := by
          rw [hpweq, show clampPrec precision - 1 = (clampPrec precision - 2) + 1 from
            by omega, pow_succ]
          exact Int.mul_ediv_cancel _ (by norm_num)
        have hpwne : ¬ pw / 10 = 0 := by
          rw [hpw10]
          positivity
        rw [if_neg hpwne, hpw10] at hfc
        rcases h2 : ltsChars (ctruncQ ((m - (ctruncQ m : ℚ)) * (pw : ℚ)))
            (10 ^ (clampPrec precision - 2)) 10
            (((10 : Int) ^ (clampPrec precision - 2)).natAbs + 1) with _ | cs2
        · rw [h2] at hfc
          exact Option.noConfusion hfc
        · rw [h2] at hfc
          dsimp only at hfc
          rcases hE2 : expChars E with _ | csE
          · rw [hE2] at hfc
            exact Option.noConfusion hfc
          · rw [hE2] at hfc
            dsimp only at hfc
            have hfc2 := Option.some.inj hfc
            subst hfc2
            -- facts about the integer-part digits
            have hd_eq : ctruncQ m = ⌊m⌋ := by rw [ctruncQ, if_neg (not_lt.2 hm0)]
            have hd0 : (0 : Int) ≤ ctruncQ m := by
              rw [hd_eq]
              exact Int.floor_nonneg.2 hm0
            have hd9 : ctruncQ m ≤ 9 := by
              rw [hd_eq]
              have hlt : ⌊m⌋ < 10 := Int.floor_lt.2 (by exact_mod_cast hm10)
              omega
            have hlen1 : 1 ≤ cs1.length := ltsChars_one_le _ _ _ _ _ h1
            have hblt1 : ctruncQ m < 10 ^ cs1.length := by
              calc ctruncQ m ≤ 9 := hd9
              _ < 10 ^ 1 := by norm_num
              _ ≤ 10 ^ cs1.length := pow_le_pow_right₀ (by norm_num) hlen1
            obtain ⟨hdv1, hmem1⟩ := ltsChars_digitsVal _ _ _ _ h1 hd0 hblt1
            -- facts about the fraction digits
            have hlen2 : cs2.length = clampPrec precision - 2 + 1 :=
              ltsChars_pow_len _ _ _ _ h2
            have hfr0 : (0 : ℚ) ≤ m - (ctruncQ m : ℚ) := by
              rw [hd_eq]
              have := Int.floor_le m
              linarith
            have hfr1 : m - (ctruncQ m : ℚ) < 1 := by
              rw [hd_eq]
              have := Int.lt_floor_add_one m
              linarith
            have hpwQpos : (0 : ℚ) < (pw : ℚ) := by
              rw [hpweq]
              push_cast
              positivity
            have hl2_eq : ctruncQ ((m - (ctruncQ m : ℚ)) * (pw : ℚ)) =
                ⌊(m - (ctruncQ m : ℚ)) * (pw : ℚ)⌋ := by
              rw [ctruncQ, if_neg (not_lt.2 (mul_nonneg hfr0 (le_of_lt hpwQpos)))]
            have hl20 : (0 : Int) ≤ ctruncQ ((m - (ctruncQ m : ℚ)) * (pw : ℚ)) := by
              rw [hl2_eq]
              exact Int.floor_nonneg.2 (mul_nonneg hfr0 (le_of_lt hpwQpos))
            have hl2pw : ctruncQ ((m - (ctruncQ m : ℚ)) * (pw : ℚ)) < pw := by
              rw [hl2_eq]
              have hle : ((⌊(m - (ctruncQ m : ℚ)) * (pw : ℚ)⌋ : ℚ)) ≤
                  (m - (ctruncQ m : ℚ)) * (pw : ℚ) := Int.floor_le _
              have hlt : (m - (ctruncQ m : ℚ)) * (pw : ℚ) < (pw : ℚ) := by nlinarith
              exact_mod_cast lt_of_le_of_lt hle hlt
            have hblt2 : ctruncQ ((m - (ctruncQ m : ℚ)) * (pw : ℚ)) < 10 ^ cs2.length := by
              rw [hlen2, show clampPrec precision - 2 + 1 = clampPrec precision - 1 from
                by omega, ← hpweq]
              exact hl2pw
            obtain ⟨hdv2, hmem2⟩ := ltsChars_digitsVal _ _ _ _ h2 hl20 hblt2
            -- the significant characters
            obtain ⟨rest, hcsE⟩ := expChars_head E csE hE2
            have hsig : sigChars (cs1 ++ '.' :: (cs2 ++ csE)) = cs1 ++ cs2 := by
              subst hcsE
              show ((cs1 ++ '.' :: (cs2 ++ 'E' :: rest)).takeWhile
                  (fun c => c ≠ 'E')).filter (fun c => c ≠ '.') = _
              have hre : cs1 ++ '.' :: (cs2 ++ 'E' :: rest) =
                  (cs1 ++ '.' :: cs2) ++ 'E' :: rest := by simp
              rw [hre, takeWhile_append_all (cs1 ++ '.' :: cs2) ('E' :: rest)
                (by
                  intro c hc
                  rw [List.mem_append, List.mem_cons] at hc
                  rcases hc with hc | hc | hc
                  · exact decide_eq_true (hmem1 c hc).2
                  · subst hc
                    decide
                  · exact decide_eq_true (hmem2 c hc).2)]
              have htE : ('E' :: rest).takeWhile (fun c => (c ≠ 'E' : Bool)) = [] := by
                simp [List.takeWhile_cons]
              rw [htE, List.append_nil, List.filter_append]
              rw [List.filter_eq_self.2 (fun c hc => decide_eq_true (hmem1 c hc).1)]
              have hfc2 : ('.' :: cs2).filter (fun c => (c ≠ '.' : Bool)) = cs2 := by
                rw [List.filter_cons, if_neg (by decide)]
                exact List.filter_eq_self.2 (fun c hc => decide_eq_true (hmem2 c hc).1)
              rw [hfc2]
            rw [hsig, digitsVal_append, hdv1, hdv2]
            -- final arithmetic
            have hpwQ : (pw : ℚ) = (10 : ℚ) ^ (((clampPrec precision : Nat) : Int) - 1) := by
              rw [hpweq]
              push_cast
              rw [← zpow_natCast (10 : ℚ) (clampPrec precision - 1),
                show (((clampPrec precision - 1 : Nat)) : Int) =
                  ((clampPrec precision : Nat) : Int) - 1 from by omega]
            rw [← hqm, mul_assoc, hzsplit]
            have hmsplit : m * (10 : ℚ) ^ (((clampPrec precision : Nat) : Int) - 1) =
                (m - (ctruncQ m : ℚ)) * (pw : ℚ) +
                  ((ctruncQ m * 10 ^ (clampPrec precision - 2 + 1) : Int) : ℚ) := by
              rw [hpwQ]
              push_cast
              rw [← zpow_natCast (10 : ℚ) (clampPrec precision - 2 + 1),
                show (((clampPrec precision - 2 + 1 : Nat)) : Int) =
                  ((clampPrec precision : Nat) : Int) - 1 from by omega]
              ring
            rw [hmsplit, Int.floor_add_int, hl2_eq, hlen2]
            ring

/-- C5: float rendering truncates and never rounds: whenever the list-level
renderer emits significant digits for a non-negative value `q` (normalised
mantissa `m`, exponent `E`, clamped precision `P`), their numeric value is
exactly `⌊q·10^(P-1-E)⌋` — the value's exact leading decimal digits, cut off
with no round-half-up correction; concretely, `9.9999999` at precision 8 in
plain notation renders as `"9.9999999"` (last digit truncated), not as
`"10.000000"`. -/
theorem c5_rendering_truncates_never_rounds :
    (∀ (q m : ℚ) (E : Int) (precision : Nat) (cs : List Char),
      0 ≤ q → normalizeQ q = some (m, E) → ftoaChars m E precision = some cs →
      digitsVal (sigChars cs) = ⌊q * (10 : ℚ) ^ ((clampPrec precision : Int) - 1 - E)⌋) ∧
    (ftoa (fun _ => NUL) 0 (99999999 / 10000000 : ℚ) 8).map
        (fun bp => bufRead bp.1 0 bp.2) = some "9.9999999".toList ∧
    "9.9999999".toList ≠ "10.000000".toList := by
  refine ⟨fun q m E precision cs h0 hn hfc =>
    sigChars_truncation q m E precision cs h0 hn hfc, ?_, by decide⟩
  norm_num [ftoa, ftoaCore, normalizeQ, scaleDown_of_lt, scaleUp_of_le, clampPrec,
    FLOAT_PRECISION, ftoaPlainLoop, ctruncQ, bwrite, bufRead, NUL, MAX_FILLER]
  decide

theorem c5_rendering_truncates_never_rounds_witness :
    normalizeQ 2 = some (2, 0) ∧ ftoaChars 2 0 0 = some "2.00000000".toList ∧
    digitsVal (sigChars "2.00000000".toList) =
      ⌊(2 : ℚ) * (10 : ℚ) ^ ((clampPrec 0 : Int) - 1 - 0)⌋ := by
  have hn : normalizeQ 2 = some (2, 0) := by
    rw [normalizeQ, if_neg (by norm_num), scaleDown_of_lt 0 (by norm_num)]
    exact scaleUp_of_le 0 (by norm_num)
  have hfc : ftoaChars 2 0 0 = some "2.00000000".toList := by
    norm_num [ftoaChars, clampPrec, FLOAT_PRECISION, plainChars, ctruncQ]
    decide
  exact ⟨hn, hfc, c5_rendering_truncates_never_rounds.1 2 2 0 0 _ (by norm_num) hn hfc⟩
